import Mathlib

/-!
The migration runner of `backend/internal/migrate/migrate.go`.

A shallow embedding of the ClickHouse migration runner: the ledger table
`migrations`, file discovery under the migrations directory, the pending set,
and the `Up`, `Down` and `Status` workflows.

Modelling conventions.

* The ledger table is a list of rows in insertion order.  `ORDER BY id` is a
  stable sort of that list, `MAX(col)` the maximum over it (0 on no rows),
  `INSERT` appends one row and `DELETE ... WHERE id = ?` removes every row with
  that id.  The table is taken to exist already, so `CREATE TABLE IF NOT EXISTS`
  changes nothing.
* Every call on the database handle (`Exec`, `Query`, `QueryRow`) consumes one
  tick of the world; the environment says for each tick whether that call fails
  (connection lost, statement rejected).  A failed call changes no row.
* A failing row query (`getAppliedMigrations`, `getMigrationsByBatch`) either
  reports its error, from `Query` or from `Scan`, or loses the row stream after
  some rows: `rows.Next()` then answers false, and since the loops of lines
  227-236 and 282-291 never ask `rows.Err()`, the rows read so far are returned
  with a nil error.
* Migration scripts are executed for their effect on other tables; they are
  recorded in the trace and do not touch the ledger table.
* `SELECT COALESCE(MAX(col), 0) + 1` is evaluated by the server in a wider type;
  `Scan` into a Go `uint32` reports an error when the value does not fit.
* The file system is a tree below `MigrationsPath`; children are listed in the
  lexical order `filepath.Walk` visits them in.  Paths are clean, so
  `filepath.Join` is concatenation with one separator.
* `executed_at DEFAULT now()` is the environment's clock read at the tick of the
  insert.
-/

namespace Migrate

deriving instance DecidableEq for Except

/-! ## Data model (`internal/model/migration.go`) -/

/-- Row of the ledger table, `model.Migration`. -/
structure Migration where
  ID : Nat
  Name : String
  Batch : Nat
  ExecutedAt : Nat
deriving DecidableEq, Repr

/-- Migration file on disk, `model.MigrationFile`. -/
structure MigrationFile where
  Name : String
  Path : String
deriving DecidableEq, Repr

/-- Errors of the runner: a failed database call, a value that `Scan` cannot
store in a `uint32`, a failed file read, a failed directory walk, and
`fmt.Errorf` wrapping. -/
inductive Err where
  | db (tick : Nat)
  | scan (value : Nat)
  | io (path : String)
  | walk (path : String)
  | wrap (msg : String) (inner : Err)
deriving DecidableEq, Repr

/-- Observable actions on files and scripts: `ioutil.ReadFile path` and
`db.Exec script`. -/
inductive Event where
  | read (path : String)
  | exec (script : String)
deriving DecidableEq, Repr

mutual
/-- Entry of the migrations directory tree.  A file whose content is `none`
cannot be read; `broken` is an entry on which `lstat` or `readdir` fails. -/
inductive Node where
  | file (name : String) (content : Option String)
  | dir (name : String) (children : NodeList)
  | broken (name : String)
/-- Entries of one directory, in lexical order. -/
inductive NodeList where
  | nil
  | cons (n : Node) (ns : NodeList)
end

/-- What the runner reads from its surroundings during one invocation:
`config.MigrationsPath`, the directory tree below it (`none`: the directory
cannot be opened), which database calls fail, how a failing row query fails
(`none`: it reports the error; `some n`: the row stream breaks after `n` rows
and the error is left in `rows.Err()`), and the clock. -/
structure Env where
  MigrationsPath : String
  tree : Option NodeList
  dbFails : Nat → Bool
  rowsBeforeFailure : Nat → Option Nat
  now : Nat → Nat

/-- State that an invocation changes: the ledger rows, the number of database
calls made so far, and the trace of file reads and script executions. -/
structure World where
  ledger : List Migration
  tick : Nat
  trace : List Event
deriving DecidableEq, Repr

/-- Result of a step: the Go return value and the world left behind. -/
abbrev Run (α : Type) : Type := World → Except Err α × World

/-! ## Strings and paths -/

/-- Go `strings.HasSuffix`. -/
def HasSuffix (s suffix : String) : Bool :=
  suffix.data.isSuffixOf s.data

/-- Go `strings.TrimSuffix`. -/
def TrimSuffix (s suffix : String) : String :=
  if HasSuffix s suffix then ⟨s.data.take (s.data.length - suffix.data.length)⟩ else s

/-- Characters after the last separator, scanning left to right. -/
def baseChars : List Char → List Char → List Char
  | [], acc => acc
  | c :: cs, acc => if c = '/' then baseChars cs [] else baseChars cs (acc ++ [c])

/-- Go `filepath.Base` on a clean path: its last element. -/
def Base (path : String) : String :=
  ⟨baseChars path.data []⟩

/-- Go `filepath.Join` on clean elements. -/
def Join (dir name : String) : String :=
  dir ++ "/" ++ name

/-- Go string comparison `a < b` (lexicographic). -/
def nameLess (a b : String) : Bool :=
  decide (a.data < b.data)

/-! ## Ledger queries as functions of the rows -/

/-- Rows in `ORDER BY id` order. -/
def orderByID (rows : List Migration) : List Migration :=
  rows.insertionSort (fun a b => a.ID ≤ b.ID)

/-- Value of `COALESCE(MAX(id), 0)`. -/
def maxID (rows : List Migration) : Nat :=
  (rows.map (fun r => r.ID)).foldr max 0

/-- Value of `COALESCE(MAX(batch), 0)`. -/
def maxBatch (rows : List Migration) : Nat :=
  (rows.map (fun r => r.Batch)).foldr max 0

/-- `Scan` of an integer column into a Go `uint32`. -/
def scanUint32 (v : Nat) : Except Err Nat :=
  if v < 2 ^ 32 then .ok v else .error (.scan v)

/-- World after one more database call. -/
def World.next (w : World) : World :=
  { w with tick := w.tick + 1 }

/-! ## File system -/

mutual
/-- Visit of one entry by the walk function of `getMigrationFiles` (lines
190-204): a regular file whose path ends in `.up.sql` is appended. -/
def walkNode (dir : String) : Node → List MigrationFile → Except Err (List MigrationFile)
  | .file name _, files =>
    let path := Join dir name
    if HasSuffix path ".up.sql" then
      .ok (files ++ [{ Name := TrimSuffix (Base path) ".up.sql", Path := path }])
    else .ok files
  | .dir name children, files => walkList (Join dir name) children files
  | .broken name, _ => .error (.walk (Join dir name))
/-- Visit of the entries of one directory, in order, stopping at an error. -/
def walkList (dir : String) : NodeList → List MigrationFile → Except Err (List MigrationFile)
  | .nil, files => .ok files
  | .cons n ns, files =>
    match walkNode dir n files with
    | .error e => .error e
    | .ok files1 => walkList dir ns files1
end

mutual
/-- Content of the regular file at `path` inside one entry, if there is one. -/
def findNode (dir path : String) : Node → Option (Option String)
  | .file name content => if Join dir name = path then some content else none
  | .dir name children => findList (Join dir name) path children
  | .broken _ => none
/-- Content of the regular file at `path` among the entries of a directory. -/
def findList (dir path : String) : NodeList → Option (Option String)
  | .nil => none
  | .cons n ns =>
    match findNode dir path n with
    | some c => some c
    | none => findList dir path ns
end

/-- Content that `ioutil.ReadFile path` returns, `none` when the read fails. -/
def fileContent (env : Env) (path : String) : Option String :=
  match env.tree with
  | none => none
  | some ns => (findList env.MigrationsPath path ns).join

/-- Go `ioutil.ReadFile`. -/
def ReadFile (env : Env) (path : String) : Run String := fun w =>
  let w1 := { w with trace := w.trace ++ [Event.read path] }
  match fileContent env path with
  | some content => (.ok content, w1)
  | none => (.error (.io path), w1)

/-- Files in the order `sort.Slice` with `files[i].Name < files[j].Name` leaves
them in. -/
def sortByName (files : List MigrationFile) : List MigrationFile :=
  files.insertionSort (fun a b => nameLess b.Name a.Name = false)

/-- Lines 187-215. -/
def getMigrationFiles (env : Env) : Except Err (List MigrationFile) :=
  match env.tree with
  | none => .error (.walk env.MigrationsPath)
  | some ns =>
    match walkList env.MigrationsPath ns [] with
    | .error e => .error e
    | .ok files => .ok (sortByName files)

/-! ## Database calls -/

/-- Execution of a migration script, `m.db.Exec(string(content))`. -/
def execScript (env : Env) (script : String) : Run Unit := fun w =>
  let w1 := { w.next with trace := w.trace ++ [Event.exec script] }
  if env.dbFails w.tick then (.error (.db w.tick), w1) else (.ok (), w1)

/-- The query and row loop shared by lines 218-237 and 273-292: `m.db.Query`,
then `rows.Next()` and `rows.Scan` until `Next` answers false; `rows.Err()` is
not consulted.  `rows` is what the query selects. -/
def readRows (env : Env) (rows : List Migration) : Run (List Migration) := fun w =>
  if env.dbFails w.tick then
    match env.rowsBeforeFailure w.tick with
    | none => (.error (.db w.tick), w.next)
    | some n => (.ok (rows.take n), w.next)
  else (.ok rows, w.next)

/-- Lines 173-185. -/
def createMigrationsTable (env : Env) : Run Unit := fun w =>
  if env.dbFails w.tick then (.error (.db w.tick), w.next) else (.ok (), w.next)

/-- Lines 218-237. -/
def getAppliedMigrations (env : Env) : Run (List Migration) := fun w =>
  readRows env (orderByID w.ledger) w

/-- Lines 257-262. -/
def getNextBatch (env : Env) : Run Nat := fun w =>
  if env.dbFails w.tick then (.error (.db w.tick), w.next)
  else (scanUint32 (maxBatch w.ledger + 1), w.next)

/-- Lines 265-270. -/
def getLastBatch (env : Env) : Run Nat := fun w =>
  if env.dbFails w.tick then (.error (.db w.tick), w.next)
  else (scanUint32 (maxBatch w.ledger), w.next)

/-- Lines 273-292. -/
def getMigrationsByBatch (env : Env) (batch : Nat) : Run (List Migration) := fun w =>
  readRows env (orderByID (w.ledger.filter (fun r => r.Batch = batch))) w

/-- Lines 341-346. -/
def getNextID (env : Env) : Run Nat := fun w =>
  if env.dbFails w.tick then (.error (.db w.tick), w.next)
  else (scanUint32 (maxID w.ledger + 1), w.next)

/-- The statement `INSERT INTO migrations (id, migration, batch) VALUES (?, ?, ?)`
of line 316. -/
def insertMigration (env : Env) (id : Nat) (name : String) (batch : Nat) : Run Unit := fun w =>
  if env.dbFails w.tick then (.error (.db w.tick), w.next)
  else (.ok (), { w.next with
    ledger := w.ledger ++ [{ ID := id, Name := name, Batch := batch, ExecutedAt := env.now w.tick }] })

/-- The statement `DELETE FROM migrations WHERE id = ?` of line 336. -/
def deleteMigration (env : Env) (id : Nat) : Run Unit := fun w =>
  if env.dbFails w.tick then (.error (.db w.tick), w.next)
  else (.ok (), { w.next with ledger := w.ledger.filter (fun r => r.ID ≠ id) })

/-! ## The runner -/

/-- Lines 240-254.  The Go map `appliedMap` is a function that answers `false`
on a missing key. -/
def getPendingMigrations (files : List MigrationFile) (applied : List Migration) :
    List MigrationFile :=
  let appliedMap : String → Bool :=
    applied.foldl (fun m migration key => if key = migration.Name then true else m key)
      (fun _ => false)
  files.foldl (fun pending file => if !appliedMap file.Name then pending ++ [file] else pending) []

/-- Lines 295-318. -/
def applyMigration (env : Env) (file : MigrationFile) (batch : Nat) : Run Unit := fun w =>
  match ReadFile env file.Path w with
  | (.error e, w1) => (.error (.wrap "не удалось прочитать файл" e), w1)
  | (.ok content, w1) =>
    match execScript env content w1 with
    | (.error e, w2) => (.error (.wrap "не удалось выполнить SQL" e), w2)
    | (.ok _, w2) =>
      match getNextID env w2 with
      | (.error e, w3) => (.error (.wrap "не удалось получить следующий ID" e), w3)
      | (.ok id, w3) => insertMigration env id file.Name batch w3

/-- Path of the down file that `rollbackMigration` reads (line 323). -/
def downPath (env : Env) (name : String) : String :=
  Join env.MigrationsPath (name ++ ".down.sql")

/-- Lines 321-338. -/
def rollbackMigration (env : Env) (migration : Migration) : Run Unit := fun w =>
  match ReadFile env (downPath env migration.Name) w with
  | (.error e, w1) => (.error (.wrap "не удалось прочитать файл отката" e), w1)
  | (.ok content, w1) =>
    match execScript env content w1 with
    | (.error e, w2) => (.error (.wrap "не удалось выполнить SQL отката" e), w2)
    | (.ok _, w2) => deleteMigration env migration.ID w2

/-- The loop of lines 78-83 over the pending files. -/
def applyAll (env : Env) (batch : Nat) : List MigrationFile → Run Unit
  | [], w => (.ok (), w)
  | file :: rest, w =>
    match applyMigration env file batch w with
    | (.error e, w1) => (.error (.wrap ("не удалось применить миграцию " ++ file.Name) e), w1)
    | (.ok _, w1) => applyAll env batch rest w1

/-- The loop of lines 108-114, given the migrations in the order it visits
them (last index first). -/
def rollbackAll (env : Env) : List Migration → Run Unit
  | [], w => (.ok (), w)
  | migration :: rest, w =>
    match rollbackMigration env migration w with
    | (.error e, w1) => (.error (.wrap ("не удалось откатить миграцию " ++ migration.Name) e), w1)
    | (.ok _, w1) => rollbackAll env rest w1

/-- Lines 52-76 of `Up`: everything before the loop.  The result is `none` when
there is nothing pending, else the pending files and the batch number of this
invocation. -/
def upPlan (env : Env) : Run (Option (List MigrationFile × Nat)) := fun w =>
  match createMigrationsTable env w with
  | (.error e, w1) => (.error (.wrap "не удалось создать таблицу миграций" e), w1)
  | (.ok _, w1) =>
    match getMigrationFiles env with
    | .error e => (.error (.wrap "не удалось получить файлы миграций" e), w1)
    | .ok files =>
      match getAppliedMigrations env w1 with
      | (.error e, w2) => (.error (.wrap "не удалось получить применённые миграции" e), w2)
      | (.ok applied, w2) =>
        let pending := getPendingMigrations files applied
        if pending.length = 0 then (.ok none, w2)
        else
          match getNextBatch env w2 with
          | (.error e, w3) => (.error (.wrap "не удалось получить номер batch" e), w3)
          | (.ok batch, w3) => (.ok (some (pending, batch)), w3)

/-- Lines 49-87. -/
def Up (env : Env) : Run Unit := fun w =>
  match upPlan env w with
  | (.error e, w1) => (.error e, w1)
  | (.ok none, w1) => (.ok (), w1)
  | (.ok (some (pending, batch)), w1) => applyAll env batch pending w1

/-- Lines 90-118. -/
def Down (env : Env) : Run Unit := fun w =>
  match getLastBatch env w with
  | (.error e, w1) => (.error (.wrap "не удалось получить последний batch" e), w1)
  | (.ok lastBatch, w1) =>
    if lastBatch = 0 then (.ok (), w1)
    else
      match getMigrationsByBatch env lastBatch w1 with
      | (.error e, w2) => (.error (.wrap "не удалось получить миграции batch" e), w2)
      | (.ok migrations, w2) => rollbackAll env migrations.reverse w2

/-- What `Status` prints: the last batch, the applied rows and the pending
files (lines 145-166). -/
structure StatusReport where
  lastBatch : Nat
  applied : List Migration
  pending : List MigrationFile
deriving DecidableEq, Repr

/-- Lines 121-170. -/
def Status (env : Env) : Run StatusReport := fun w =>
  match createMigrationsTable env w with
  | (.error e, w1) => (.error (.wrap "не удалось создать таблицу миграций" e), w1)
  | (.ok _, w1) =>
    match getMigrationFiles env with
    | .error e => (.error (.wrap "не удалось получить файлы миграций" e), w1)
    | .ok files =>
      match getAppliedMigrations env w1 with
      | (.error e, w2) => (.error (.wrap "не удалось получить применённые миграции" e), w2)
      | (.ok applied, w2) =>
        let pending := getPendingMigrations files applied
        match getLastBatch env w2 with
        | (.error e, w3) => (.error (.wrap "не удалось получить последний batch" e), w3)
        | (.ok lastBatch, w3) =>
          (.ok { lastBatch := lastBatch, applied := applied, pending := pending }, w3)

/-- One command of the CLI. -/
inductive Cmd where
  | up
  | down
deriving DecidableEq, Repr

/-- World after one command. -/
def step (w : World) (c : Cmd × Env) : World :=
  match c.1 with
  | .up => (Up c.2 w).2
  | .down => (Down c.2 w).2

/-- World after a sequence of commands, each with its own environment. -/
def runCmds (cmds : List (Cmd × Env)) (w : World) : World :=
  cmds.foldl step w

/-- World after a sequence of `Up` invocations. -/
def runUps (envs : List Env) (w : World) : World :=
  envs.foldl (fun w env => (Up env w).2) w

/-- The world with an empty ledger. -/
def emptyWorld : World :=
  { ledger := [], tick := 0, trace := [] }

/-! ## Example environments -/

/-- Environment in which no database call fails. -/
def calmEnv (tree : NodeList) : Env :=
  { MigrationsPath := "migrations", tree := some tree, dbFails := fun _ => false,
    rowsBeforeFailure := fun _ => none, now := fun t => t }

/-- The directory of the two-migration scenario. -/
def twoFiles : NodeList :=
  .cons (.file "20240101_000000_a.down.sql" (some "DROP a"))
  (.cons (.file "20240101_000000_a.up.sql" (some "CREATE a"))
  (.cons (.file "20240102_000000_b.down.sql" (some "DROP b"))
  (.cons (.file "20240102_000000_b.up.sql" (some "CREATE b")) .nil)))

/-- The directory of the two-migration scenario when the second up file cannot
be read. -/
def secondUnreadable : NodeList :=
  .cons (.file "20240101_000000_a.down.sql" (some "DROP a"))
  (.cons (.file "20240101_000000_a.up.sql" (some "CREATE a"))
  (.cons (.file "20240102_000000_b.down.sql" (some "DROP b"))
  (.cons (.file "20240102_000000_b.up.sql" none) .nil)))

/-- What `getMigrationFiles` finds in `twoFiles`. -/
def twoUpFiles : List MigrationFile :=
  [{ Name := "20240101_000000_a", Path := "migrations/20240101_000000_a.up.sql" },
   { Name := "20240102_000000_b", Path := "migrations/20240102_000000_b.up.sql" }]

/-! ## Expected effects, used to state the theorems -/

/-- Rows appended by a loop over `files` in which every step succeeds, when
the ledger's largest id is `id0` and the loop starts at tick `t0`. -/
def newRows (env : Env) (batch : Nat) : Nat → Nat → List MigrationFile → List Migration
  | _, _, [] => []
  | id0, t0, f :: fs =>
    { ID := id0 + 1, Name := f.Name, Batch := batch, ExecutedAt := env.now (t0 + 2) }
      :: newRows env batch (id0 + 1) (t0 + 3) fs

/-- Reads and executions of the up scripts of `files`, in order. -/
def upEvents (env : Env) (files : List MigrationFile) : List Event :=
  files.flatMap (fun f => [Event.read f.Path, Event.exec ((fileContent env f.Path).getD "")])

/-- Reads and executions of the down scripts of the migrations `names`, in
order. -/
def downEvents (env : Env) (names : List String) : List Event :=
  names.flatMap (fun n =>
    [Event.read (downPath env n), Event.exec ((fileContent env (downPath env n)).getD "")])

/-- Files of `F` that no row of the ledger `L` names. -/
def pendingOf (F : List MigrationFile) (L : List Migration) : List MigrationFile :=
  F.filter (fun f => decide (f.Name ∉ L.map (fun r => r.Name)))

/-- Ids go up along the ledger. -/
def IdsAscend (w : World) : Prop :=
  w.ledger.Pairwise (fun a b => a.ID < b.ID)

/-- The directory has no sub-directory and no broken entry, and no file name in
it contains a separator. -/
def flatList : NodeList → Bool
  | .nil => true
  | .cons (.file name _) ns => decide ('/' ∉ name.data) && flatList ns
  | .cons (.dir _ _) _ => false
  | .cons (.broken _) _ => false

/-- Names of the regular files of a directory, in order. -/
def fileNames : NodeList → List String
  | .nil => []
  | .cons (.file name _) ns => name :: fileNames ns
  | .cons (.dir _ _) ns => fileNames ns
  | .cons (.broken _) ns => fileNames ns

/-- The entry that the walk appends for the file `name` of the directory
`dir` (lines 196-200). -/
def upFileOf (dir name : String) : MigrationFile :=
  { Name := TrimSuffix (Base (Join dir name)) ".up.sql", Path := Join dir name }

/-- No two rows of the ledger have the same name. -/
def NamesDistinct (w : World) : Prop :=
  (w.ledger.map (fun r => r.Name)).Nodup

/-- The two-migration directory on a database whose fourth call fails once. -/
def flakyEnv : Env :=
  { MigrationsPath := "migrations", tree := some twoFiles, dbFails := fun n => n == 3,
    rowsBeforeFailure := fun _ => none, now := fun t => t }

/-- A directory whose only up file cannot be read. -/
def firstUnreadable : NodeList :=
  .cons (.file "20240101_000000_a.down.sql" (some "DROP a"))
  (.cons (.file "20240101_000000_a.up.sql" none) .nil)

/-- The two-migration directory after a third migration was added. -/
def threeFiles : NodeList :=
  .cons (.file "20240101_000000_a.down.sql" (some "DROP a"))
  (.cons (.file "20240101_000000_a.up.sql" (some "CREATE a"))
  (.cons (.file "20240102_000000_b.down.sql" (some "DROP b"))
  (.cons (.file "20240102_000000_b.up.sql" (some "CREATE b"))
  (.cons (.file "20240103_000000_c.down.sql" (some "DROP c"))
  (.cons (.file "20240103_000000_c.up.sql" (some "CREATE c")) .nil)))))

/-- A migrations directory with the same file names in two sub-directories. -/
def sameNameTree : NodeList :=
  .cons (.dir "core"
    (.cons (.file "001_init.down.sql" (some "DROP core"))
    (.cons (.file "001_init.up.sql" (some "CREATE core")) .nil)))
  (.cons (.dir "reports"
    (.cons (.file "001_init.down.sql" (some "DROP reports"))
    (.cons (.file "001_init.up.sql" (some "CREATE reports")) .nil))) .nil)

/-- A migrations directory with one migration in a sub-directory. -/
def nestedTree : NodeList :=
  .cons (.dir "core"
    (.cons (.file "001_init.down.sql" (some "DROP core"))
    (.cons (.file "001_init.up.sql" (some "CREATE core")) .nil))) .nil

/-- A migrations directory in which a migration of a sub-directory has the
name of a migration at the top. -/
def shadowTree : NodeList :=
  .cons (.file "001_init.down.sql" (some "DROP top"))
  (.cons (.file "001_init.up.sql" (some "CREATE top"))
  (.cons (.dir "core"
    (.cons (.file "001_init.down.sql" (some "DROP core"))
    (.cons (.file "001_init.up.sql" (some "CREATE core")) .nil))) .nil))

/-- The two-migration directory on a database whose eleventh call, a row query,
loses its row stream before the first row. -/
def brokenListingEnv : Env :=
  { MigrationsPath := "migrations", tree := some twoFiles, dbFails := fun n => n == 10,
    rowsBeforeFailure := fun _ => some 0, now := fun t => t }

/-- Path of the down file next to an up file: the path of the up file with the
suffix `.up.sql` swapped for `.down.sql`. -/
def siblingDown (p : MigrationFile) : String :=
  TrimSuffix p.Path ".up.sql" ++ ".down.sql"

/-! ## The pending set -/

/-- The map built by the first loop of `getPendingMigrations` answers `true`
exactly on the keys that were already `true` and on the names of the records. -/
theorem appliedMap_apply (applied : List Migration) (m : String → Bool) (key : String) :
    applied.foldl (fun m migration key => if key = migration.Name then true else m key) m key
      = (m key || decide (key ∈ applied.map (fun r => r.Name))) := by
  induction applied generalizing m with
  | nil => simp
  | cons a rest ih =>
    rw [List.foldl_cons, ih]
    by_cases h : key = a.Name
    · simp [h]
    · simp [h]

/-- The second loop of `getPendingMigrations` appends the files that pass the
test, in order. -/
theorem pendingLoop_eq (test : MigrationFile → Bool) (files acc : List MigrationFile) :
    files.foldl (fun pending file => if test file then pending ++ [file] else pending) acc
      = acc ++ files.filter test := by
  induction files generalizing acc with
  | nil => simp
  | cons f rest ih =>
    rw [List.foldl_cons, ih]
    by_cases h : test f = true
    · simp [h, List.filter_cons]
    · simp [h, List.filter_cons]

/-- The pending files are the discovered files whose name no record carries. -/
theorem getPendingMigrations_eq_filter (files : List MigrationFile) (applied : List Migration) :
    getPendingMigrations files applied
      = files.filter (fun f => decide (f.Name ∉ applied.map (fun r => r.Name))) := by
  unfold getPendingMigrations
  simp only []
  rw [pendingLoop_eq (fun file =>
    !(applied.foldl (fun m migration key => if key = migration.Name then true else m key)
      (fun _ => false) file.Name))]
  simp only [List.nil_append]
  apply List.filter_congr
  intro f _
  rw [appliedMap_apply]
  by_cases h : f.Name ∈ applied.map (fun r => r.Name)
  · simp only [h, decide_True, Bool.or_true, Bool.not_true, not_true_eq_false, decide_False]
  · simp only [h, decide_False, Bool.or_false, Bool.not_false, not_false_eq_true, decide_True]

/-- C1: `getPendingMigrations F A` is `F` filtered to the files whose `Name` is
the `Name` of no record of `A`; so a file is returned exactly when it is in `F`
and not applied, a file that is not applied is returned as many times as it
occurs in `F`, and the result keeps the relative order of `F`. -/
theorem getPendingMigrations_spec (F : List MigrationFile) (A : List Migration) :
    getPendingMigrations F A = F.filter (fun f => decide (f.Name ∉ A.map (fun r => r.Name)))
    ∧ (∀ f, f ∈ getPendingMigrations F A ↔ (f ∈ F ∧ ∀ r ∈ A, r.Name ≠ f.Name))
    ∧ (∀ f, (∀ r ∈ A, r.Name ≠ f.Name) →
        (getPendingMigrations F A).count f = F.count f)
    ∧ List.Sublist (getPendingMigrations F A) F := by
  rw [getPendingMigrations_eq_filter]
  refine ⟨rfl, ?_, ?_, List.filter_sublist F⟩
  · intro f
    simp only [List.mem_filter, List.mem_map, decide_eq_true_eq, not_exists, not_and]
  · intro f hf
    rw [List.count_filter]
    simp only [List.mem_map, decide_eq_true_eq, not_exists, not_and]
    exact hf

/-! ## Ledger queries -/

theorem maxID_append (l1 l2 : List Migration) : maxID (l1 ++ l2) = max (maxID l1) (maxID l2) := by
  induction l1 with
  | nil => simp [maxID]
  | cons a rest ih =>
    simp only [maxID, List.cons_append, List.map_cons, List.foldr_cons] at ih ⊢
    rw [ih, max_assoc]

theorem maxBatch_append (l1 l2 : List Migration) :
    maxBatch (l1 ++ l2) = max (maxBatch l1) (maxBatch l2) := by
  induction l1 with
  | nil => simp [maxBatch]
  | cons a rest ih =>
    simp only [maxBatch, List.cons_append, List.map_cons, List.foldr_cons] at ih ⊢
    rw [ih, max_assoc]

theorem le_maxID {l : List Migration} {r : Migration} (h : r ∈ l) : r.ID ≤ maxID l := by
  induction l with
  | nil => cases h
  | cons a rest ih =>
    simp only [maxID, List.map_cons, List.foldr_cons] at ih ⊢
    rcases List.mem_cons.mp h with h1 | h1
    · subst h1; exact le_max_left _ _
    · exact le_trans (ih h1) (le_max_right _ _)

theorem le_maxBatch {l : List Migration} {r : Migration} (h : r ∈ l) : r.Batch ≤ maxBatch l := by
  induction l with
  | nil => cases h
  | cons a rest ih =>
    simp only [maxBatch, List.map_cons, List.foldr_cons] at ih ⊢
    rcases List.mem_cons.mp h with h1 | h1
    · subst h1; exact le_max_left _ _
    · exact le_trans (ih h1) (le_max_right _ _)

theorem maxID_singleton (r : Migration) : maxID [r] = r.ID := by
  simp [maxID]

theorem maxBatch_le_of_forall {l : List Migration} {b : Nat} (h : ∀ r ∈ l, r.Batch ≤ b) :
    maxBatch l ≤ b := by
  induction l with
  | nil => simp [maxBatch]
  | cons a rest ih =>
    simp only [maxBatch, List.map_cons, List.foldr_cons] at ih ⊢
    exact max_le (h a (List.mem_cons_self _ _)) (ih (fun r hr => h r (List.mem_cons_of_mem _ hr)))

theorem mem_orderByID {l : List Migration} {r : Migration} : r ∈ orderByID l ↔ r ∈ l :=
  List.mem_insertionSort _

/-- The pending set does not depend on the order of the applied rows. -/
theorem getPendingMigrations_orderByID (F : List MigrationFile) (L : List Migration) :
    getPendingMigrations F (orderByID L) = pendingOf F L := by
  rw [getPendingMigrations_eq_filter]
  unfold pendingOf
  apply List.filter_congr
  intro f _
  have : f.Name ∈ (orderByID L).map (fun r => r.Name) ↔ f.Name ∈ L.map (fun r => r.Name) := by
    simp only [List.mem_map, mem_orderByID]
  simp only [this]

/-! ## Rows appended by a successful loop -/

theorem newRows_length (env : Env) (b : Nat) (P : List MigrationFile) (id0 t0 : Nat) :
    (newRows env b id0 t0 P).length = P.length := by
  induction P generalizing id0 t0 with
  | nil => rfl
  | cons f fs ih => simp [newRows, ih]

theorem newRows_names (env : Env) (b : Nat) (P : List MigrationFile) (id0 t0 : Nat) :
    (newRows env b id0 t0 P).map (fun r => r.Name) = P.map (fun f => f.Name) := by
  induction P generalizing id0 t0 with
  | nil => rfl
  | cons f fs ih => simp [newRows, ih]

theorem newRows_batch (env : Env) (b : Nat) (P : List MigrationFile) (id0 t0 : Nat) :
    ∀ r ∈ newRows env b id0 t0 P, r.Batch = b := by
  induction P generalizing id0 t0 with
  | nil => intro r hr; cases hr
  | cons f fs ih =>
    intro r hr
    simp only [newRows, List.mem_cons] at hr
    rcases hr with h | h
    · subst h; rfl
    · exact ih _ _ r h

theorem newRows_id_gt (env : Env) (b : Nat) (P : List MigrationFile) (id0 t0 : Nat) :
    ∀ r ∈ newRows env b id0 t0 P, id0 < r.ID := by
  induction P generalizing id0 t0 with
  | nil => intro r hr; cases hr
  | cons f fs ih =>
    intro r hr
    simp only [newRows, List.mem_cons] at hr
    rcases hr with h | h
    · subst h; exact Nat.lt_succ_self _
    · exact Nat.lt_trans (Nat.lt_succ_self _) (ih _ _ r h)

theorem newRows_sorted (env : Env) (b : Nat) (P : List MigrationFile) (id0 t0 : Nat) :
    (newRows env b id0 t0 P).Pairwise (fun x y => x.ID < y.ID) := by
  induction P generalizing id0 t0 with
  | nil => exact List.Pairwise.nil
  | cons f fs ih =>
    simp only [newRows]
    refine List.Pairwise.cons ?_ (ih _ _)
    intro r hr
    exact newRows_id_gt env b fs _ _ r hr

theorem newRows_eq_enum (env : Env) (b : Nat) (P : List MigrationFile) (id0 t0 k : Nat) :
    newRows env b (id0 + k) (t0 + 3 * k) P
      = (P.enumFrom k).map (fun ip =>
          { ID := id0 + (ip.1 + 1), Name := ip.2.Name, Batch := b,
            ExecutedAt := env.now (t0 + 3 * ip.1 + 2) }) := by
  induction P generalizing k with
  | nil => rfl
  | cons f fs ih =>
    simp only [newRows, List.enumFrom_cons, List.map_cons]
    have h := ih (k + 1)
    have e1 : id0 + (k + 1) = id0 + k + 1 := rfl
    have e2 : t0 + 3 * (k + 1) = t0 + 3 * k + 3 := by ring
    rw [e1, e2] at h
    rw [h]
    rfl

theorem maxID_append_newRows (env : Env) (b : Nat) (L : List Migration) (P : List MigrationFile)
    (t0 : Nat) : maxID (L ++ newRows env b (maxID L) t0 P) = maxID L + P.length := by
  induction P generalizing L t0 with
  | nil => simp [newRows]
  | cons f fs ih =>
    simp only [newRows, List.length_cons]
    have h := ih (L ++ [{ ID := maxID L + 1, Name := f.Name, Batch := b, ExecutedAt := env.now (t0 + 2) }]) (t0 + 3)
    have hm : maxID (L ++ [{ ID := maxID L + 1, Name := f.Name, Batch := b, ExecutedAt := env.now (t0 + 2) }]) = maxID L + 1 := by
      rw [maxID_append, maxID_singleton]; simp
    rw [hm, List.append_assoc, List.singleton_append] at h
    rw [h]; ring

/-! ## Successful runs of the apply loop -/

theorem applyMigration_ok (env : Env) (f : MigrationFile) (b : Nat) (w : World) (c : String)
    (hdb : ∀ n, env.dbFails n = false) (hc : fileContent env f.Path = some c)
    (hid : maxID w.ledger + 1 < 2 ^ 32) :
    applyMigration env f b w = (.ok (),
      { ledger := w.ledger ++ [{ ID := maxID w.ledger + 1, Name := f.Name, Batch := b,
                                 ExecutedAt := env.now (w.tick + 2) }],
        tick := w.tick + 3,
        trace := w.trace ++ [Event.read f.Path, Event.exec c] }) := by
  have hid1 : maxID w.ledger + 1 < 4294967296 := by simpa using hid
  simp [applyMigration, ReadFile, execScript, getNextID, insertMigration, scanUint32, World.next,
    hdb, hc, hid1]

theorem applyAll_ok (env : Env) (b : Nat) (P : List MigrationFile) (w : World)
    (hdb : ∀ n, env.dbFails n = false)
    (hread : ∀ p ∈ P, ∃ c, fileContent env p.Path = some c)
    (hid : maxID w.ledger + P.length < 2 ^ 32) :
    applyAll env b P w = (.ok (),
      { ledger := w.ledger ++ newRows env b (maxID w.ledger) w.tick P,
        tick := w.tick + 3 * P.length,
        trace := w.trace ++ upEvents env P }) := by
  induction P generalizing w with
  | nil => simp [applyAll, newRows, upEvents]
  | cons f fs ih =>
    obtain ⟨c, hc⟩ := hread f (List.mem_cons_self _ _)
    have hlen : (f :: fs).length = fs.length + 1 := rfl
    rw [hlen] at hid
    have h1 := applyMigration_ok env f b w c hdb hc (by omega)
    simp only [applyAll, h1]
    have hm : maxID (w.ledger ++ [⟨maxID w.ledger + 1, f.Name, b, env.now (w.tick + 2)⟩])
        = maxID w.ledger + 1 := by
      rw [maxID_append, maxID_singleton]; simp
    rw [ih _ (fun p hp => hread p (List.mem_cons_of_mem _ hp)) (by simp only [hm]; omega)]
    simp only [hm, newRows, upEvents, List.flatMap_cons, hc, Option.getD_some, List.append_assoc,
      List.singleton_append, List.length_cons, List.cons_append, List.nil_append]
    congr 2
    ring

theorem upPlan_ok (env : Env) (w : World) (F : List MigrationFile)
    (hF : getMigrationFiles env = .ok F) (hdb : ∀ n, env.dbFails n = false)
    (hne : pendingOf F w.ledger ≠ []) (hb : maxBatch w.ledger + 1 < 2 ^ 32) :
    upPlan env w = (.ok (some (pendingOf F w.ledger, maxBatch w.ledger + 1)),
      { w with tick := w.tick + 3 }) := by
  have hlen : (pendingOf F w.ledger).length ≠ 0 := by
    intro h; exact hne (List.length_eq_zero.mp h)
  have hb1 : maxBatch w.ledger + 1 < 4294967296 := by simpa using hb
  simp [upPlan, createMigrationsTable, getAppliedMigrations, readRows, getNextBatch, scanUint32,
    World.next, hF, hdb, getPendingMigrations_orderByID, hlen, hb1]

theorem upPlan_none (env : Env) (w : World) (F : List MigrationFile)
    (hF : getMigrationFiles env = .ok F) (hdb : ∀ n, env.dbFails n = false)
    (hnil : pendingOf F w.ledger = []) :
    upPlan env w = (.ok none, { w with tick := w.tick + 2 }) := by
  simp [upPlan, createMigrationsTable, getAppliedMigrations, readRows, World.next,
    hF, hdb, getPendingMigrations_orderByID, hnil]

/-- World that a fully successful `Up` leaves. -/
theorem Up_ok (env : Env) (w : World) (F : List MigrationFile)
    (hF : getMigrationFiles env = .ok F) (hdb : ∀ n, env.dbFails n = false)
    (hne : pendingOf F w.ledger ≠ [])
    (hread : ∀ p ∈ pendingOf F w.ledger, ∃ c, fileContent env p.Path = some c)
    (hid : maxID w.ledger + (pendingOf F w.ledger).length < 2 ^ 32)
    (hb : maxBatch w.ledger + 1 < 2 ^ 32) :
    Up env w = (.ok (),
      { ledger := w.ledger ++
          newRows env (maxBatch w.ledger + 1) (maxID w.ledger) (w.tick + 3) (pendingOf F w.ledger),
        tick := w.tick + 3 + 3 * (pendingOf F w.ledger).length,
        trace := w.trace ++ upEvents env (pendingOf F w.ledger) }) := by
  simp only [Up, upPlan_ok env w F hF hdb hne hb]
  rw [applyAll_ok env _ _ { w with tick := w.tick + 3 } hdb hread hid]

/-! ## Successful runs of the rollback loop -/

theorem rollbackMigration_ok (env : Env) (m : Migration) (w : World) (c : String)
    (hdb : ∀ n, env.dbFails n = false) (hc : fileContent env (downPath env m.Name) = some c) :
    rollbackMigration env m w = (.ok (),
      { ledger := w.ledger.filter (fun r => r.ID ≠ m.ID),
        tick := w.tick + 2,
        trace := w.trace ++ [Event.read (downPath env m.Name), Event.exec c] }) := by
  simp [rollbackMigration, ReadFile, execScript, deleteMigration, World.next, hdb, hc]

theorem rollbackAll_ok (env : Env) (rs : List Migration) (w : World)
    (hdb : ∀ n, env.dbFails n = false)
    (hread : ∀ r ∈ rs, ∃ c, fileContent env (downPath env r.Name) = some c) :
    rollbackAll env rs w = (.ok (),
      { ledger := w.ledger.filter (fun r => decide (r.ID ∉ rs.map (fun m => m.ID))),
        tick := w.tick + 2 * rs.length,
        trace := w.trace ++ downEvents env (rs.map (fun m => m.Name)) }) := by
  induction rs generalizing w with
  | nil => simp [rollbackAll, downEvents]
  | cons m rest ih =>
    obtain ⟨c, hc⟩ := hread m (List.mem_cons_self _ _)
    simp only [rollbackAll, rollbackMigration_ok env m w c hdb hc]
    rw [ih _ (fun r hr => hread r (List.mem_cons_of_mem _ hr))]
    simp only [downEvents, List.map_cons, List.flatMap_cons, hc, Option.getD_some,
      List.append_assoc, List.length_cons, List.filter_filter, List.cons_append, List.nil_append]
    congr 2
    · apply List.filter_congr
      intro r _
      simp only [List.mem_cons, not_or, Bool.decide_and, Bool.and_comm]
    · ring

theorem maxBatch_append_newRows (env : Env) (L : List Migration) (P : List MigrationFile)
    (id0 t0 : Nat) (hne : P ≠ []) :
    maxBatch (L ++ newRows env (maxBatch L + 1) id0 t0 P) = maxBatch L + 1 := by
  rw [maxBatch_append]
  apply le_antisymm
  · apply max_le (Nat.le_succ _)
    apply maxBatch_le_of_forall
    intro r hr
    exact le_of_eq (newRows_batch env _ P id0 t0 r hr)
  · cases P with
    | nil => exact absurd rfl hne
    | cons f fs =>
      refine le_trans ?_ (le_max_right _ _)
      have : (⟨id0 + 1, f.Name, maxBatch L + 1, env.now (t0 + 2)⟩ : Migration)
          ∈ newRows env (maxBatch L + 1) id0 t0 (f :: fs) := by
        simp [newRows]
      exact le_maxBatch this

theorem filter_batch_append_newRows (env : Env) (L : List Migration) (P : List MigrationFile)
    (id0 t0 : Nat) :
    (L ++ newRows env (maxBatch L + 1) id0 t0 P).filter (fun r => r.Batch = maxBatch L + 1)
      = newRows env (maxBatch L + 1) id0 t0 P := by
  rw [List.filter_append]
  have h1 : L.filter (fun r => decide (r.Batch = maxBatch L + 1)) = [] := by
    rw [List.filter_eq_nil_iff]
    intro r hr
    have := le_maxBatch hr
    simp only [decide_eq_true_eq]
    omega
  have h2 : (newRows env (maxBatch L + 1) id0 t0 P).filter
      (fun r => decide (r.Batch = maxBatch L + 1)) = newRows env (maxBatch L + 1) id0 t0 P := by
    rw [List.filter_eq_self]
    intro r hr
    simp only [decide_eq_true_eq]
    exact newRows_batch env _ P id0 t0 r hr
  rw [h1, h2, List.nil_append]

theorem orderByID_newRows (env : Env) (b : Nat) (P : List MigrationFile) (id0 t0 : Nat) :
    orderByID (newRows env b id0 t0 P) = newRows env b id0 t0 P := by
  apply List.Sorted.insertionSort_eq
  exact (newRows_sorted env b P id0 t0).imp (fun h => Nat.le_of_lt h)

theorem filter_ids_append_newRows (env : Env) (b : Nat) (L : List Migration)
    (P : List MigrationFile) (t0 : Nat) :
    (L ++ newRows env b (maxID L) t0 P).filter
        (fun r => decide (r.ID ∉ (newRows env b (maxID L) t0 P).reverse.map (fun m => m.ID)))
      = L := by
  rw [List.filter_append]
  have h1 : L.filter (fun r => decide (r.ID ∉ (newRows env b (maxID L) t0 P).reverse.map
      (fun m => m.ID))) = L := by
    rw [List.filter_eq_self]
    intro r hr
    simp only [List.map_reverse, List.mem_reverse, List.mem_map, not_exists, not_and,
      decide_eq_true_eq]
    intro x hx hxe
    have h3 := newRows_id_gt env b P (maxID L) t0 x hx
    have h4 := le_maxID hr
    omega
  have h2 : (newRows env b (maxID L) t0 P).filter (fun r => decide (r.ID ∉
      (newRows env b (maxID L) t0 P).reverse.map (fun m => m.ID))) = [] := by
    rw [List.filter_eq_nil_iff]
    intro r hr
    simp only [List.map_reverse, List.mem_reverse, List.mem_map, not_exists, not_and,
      decide_eq_true_eq, not_forall, Classical.not_imp, not_not]
    exact ⟨r, hr, rfl⟩
  rw [h1, h2, List.append_nil]

/-- World that a fully successful `Down` leaves right after a fully successful
`Up` that applied the files `P` on the ledger `L`. -/
theorem Down_after_Up_ok (env envU : Env) (b' : Nat) (L : List Migration) (P : List MigrationFile)
    (t0 t1 : Nat) (tr : List Event)
    (hdb : ∀ n, env.dbFails n = false) (hne : P ≠ [])
    (hread : ∀ p ∈ P, ∃ c, fileContent env (downPath env p.Name) = some c)
    (hb : maxBatch L + 1 < 2 ^ 32) (hb' : b' = maxBatch L + 1) :
    Down env { ledger := L ++ newRows envU b' (maxID L) t0 P, tick := t1, trace := tr }
      = (.ok (),
        { ledger := L, tick := t1 + 2 + 2 * P.length,
          trace := tr ++ downEvents env (P.reverse.map (fun p => p.Name)) }) := by
  subst hb'
  have hmax := maxBatch_append_newRows envU L P (maxID L) t0 hne
  have hfil := filter_batch_append_newRows envU L P (maxID L) t0
  have hord := orderByID_newRows envU (maxBatch L + 1) P (maxID L) t0
  have hrd : ∀ r ∈ (newRows envU (maxBatch L + 1) (maxID L) t0 P).reverse,
      ∃ c, fileContent env (downPath env r.Name) = some c := by
    intro r hr
    have hn : r.Name ∈ (newRows envU (maxBatch L + 1) (maxID L) t0 P).map (fun r => r.Name) :=
      List.mem_map_of_mem _ (List.mem_reverse.mp hr)
    rw [newRows_names] at hn
    obtain ⟨p, hp, hpe⟩ := List.mem_map.mp hn
    rw [← hpe]
    exact hread p hp
  simp only [Down, getLastBatch, getMigrationsByBatch, readRows, hdb, World.next, scanUint32, hmax,
    if_pos hb, hfil, hord, Nat.succ_ne_zero, if_false, Bool.false_eq_true]
  rw [rollbackAll_ok env _ _ hdb hrd, filter_ids_append_newRows]
  simp only [List.length_reverse, newRows_length, List.map_reverse, newRows_names]

theorem pending_eq_pendingOf (F : List MigrationFile) (L : List Migration) :
    getPendingMigrations F L = pendingOf F L :=
  getPendingMigrations_eq_filter F L

theorem exists_of_isSome {o : Option String} (h : o.isSome = true) : ∃ c, o = some c :=
  Option.isSome_iff_exists.mp h

/-- World left by a fully successful `Up` followed by a fully successful
`Down`. -/
theorem Up_then_Down_ok (env env' : Env) (w : World) (F : List MigrationFile)
    (hF : getMigrationFiles env = .ok F)
    (hdb : ∀ n, env.dbFails n = false)
    (hne : getPendingMigrations F w.ledger ≠ [])
    (hread : ∀ p ∈ getPendingMigrations F w.ledger, (fileContent env p.Path).isSome = true)
    (hid : maxID w.ledger + (getPendingMigrations F w.ledger).length < 2 ^ 32)
    (hb : maxBatch w.ledger + 1 < 2 ^ 32)
    (hdb' : ∀ n, env'.dbFails n = false)
    (hdown : ∀ p ∈ getPendingMigrations F w.ledger,
      (fileContent env' (downPath env' p.Name)).isSome = true) :
    Down env' (Up env w).2 = (.ok (),
      { ledger := w.ledger,
        tick := w.tick + 3 + 3 * (getPendingMigrations F w.ledger).length + 2
          + 2 * (getPendingMigrations F w.ledger).length,
        trace := w.trace ++ upEvents env (getPendingMigrations F w.ledger)
          ++ downEvents env' ((getPendingMigrations F w.ledger).reverse.map (fun p => p.Name)) }) := by
  rw [pending_eq_pendingOf] at hne hread hid hdown ⊢
  rw [Up_ok env w F hF hdb hne (fun p hp => exists_of_isSome (hread p hp)) hid hb]
  exact Down_after_Up_ok env' env _ w.ledger _ _ _ _ hdb' hne
    (fun p hp => exists_of_isSome (hdown p hp)) hb rfl

/-! ## Order of the discovered files -/

theorem nameLess_eq_false_iff (a b : String) : nameLess b a = false ↔ a ≤ b := by
  have h : nameLess b a = true ↔ b < a := by
    simp [nameLess]
  rw [← not_lt, ← h]
  simp

theorem sortByName_sorted (files : List MigrationFile) :
    (sortByName files).Pairwise (fun a b => nameLess b.Name a.Name = false) := by
  haveI : IsTotal MigrationFile (fun a b => nameLess b.Name a.Name = false) :=
    ⟨fun a b => by
      simp only [nameLess_eq_false_iff]
      exact le_total _ _⟩
  haveI : IsTrans MigrationFile (fun a b => nameLess b.Name a.Name = false) :=
    ⟨fun a b c => by
      simp only [nameLess_eq_false_iff]
      exact le_trans⟩
  exact List.sorted_insertionSort _ files

theorem getMigrationFiles_sorted (env : Env) (F : List MigrationFile)
    (hF : getMigrationFiles env = .ok F) :
    F.Pairwise (fun a b => nameLess b.Name a.Name = false) := by
  unfold getMigrationFiles at hF
  split at hF
  · cases hF
  · split at hF
    · cases hF
    · cases hF
      exact sortByName_sorted _

/-- The names of the pending files, read backwards, never go up. -/
theorem pending_reverse_descending (env : Env) (F : List MigrationFile) (L : List Migration)
    (hF : getMigrationFiles env = .ok F) :
    ((getPendingMigrations F L).reverse.map (fun p => p.Name)).Pairwise
      (fun a b => nameLess a b = false) := by
  rw [List.pairwise_map, List.pairwise_reverse, getPendingMigrations_eq_filter]
  exact (getMigrationFiles_sorted env F hF).sublist (List.filter_sublist F)

/-! ## Claims on successful runs -/

/-- C2: when the pending list `p1..pk` of `Up` is not empty and every file read
and database call succeeds without 32-bit overflow, `Up` returns no error and
leaves the ledger equal to the old ledger `L` followed by `k` new rows, row `i`
(counted from 0) having `Name = p(i+1).Name`, `ID = maxID L + (i + 1)` and the
shared `Batch = maxBatch L + 1`; its `ExecutedAt` is the clock at the tick of
its insert, the third call of round `i` after the three calls before the loop. -/
theorem Up_success_appends_one_batch (env : Env) (w : World) (F : List MigrationFile)
    (hF : getMigrationFiles env = .ok F)
    (hdb : ∀ n, env.dbFails n = false)
    (hne : getPendingMigrations F w.ledger ≠ [])
    (hread : ∀ p ∈ getPendingMigrations F w.ledger, (fileContent env p.Path).isSome = true)
    (hid : maxID w.ledger + (getPendingMigrations F w.ledger).length < 2 ^ 32)
    (hb : maxBatch w.ledger + 1 < 2 ^ 32) :
    (Up env w).1 = .ok ()
    ∧ (Up env w).2.ledger = w.ledger ++ (getPendingMigrations F w.ledger).enum.map (fun ip =>
        { ID := maxID w.ledger + (ip.1 + 1), Name := ip.2.Name, Batch := maxBatch w.ledger + 1,
          ExecutedAt := env.now (w.tick + 3 + 3 * ip.1 + 2) }) := by
  rw [pending_eq_pendingOf] at hne hread hid ⊢
  rw [Up_ok env w F hF hdb hne (fun p hp => exists_of_isSome (hread p hp)) hid hb]
  refine ⟨rfl, ?_⟩
  have h := newRows_eq_enum env (maxBatch w.ledger + 1) (pendingOf F w.ledger) (maxID w.ledger)
    (w.tick + 3) 0
  simp only [Nat.add_zero, Nat.mul_zero] at h
  rw [h]
  rfl

/-- C3: when every step of an `Up` with a non-empty pending list and of the
`Down` that follows succeeds, the `Down` returns no error and leaves the ledger
equal to the ledger `L` before the `Up`; no row of the batch that the `Up`
assigned remains. -/
theorem Up_then_Down_restores_ledger (env env' : Env) (w : World) (F : List MigrationFile)
    (hF : getMigrationFiles env = .ok F)
    (hdb : ∀ n, env.dbFails n = false)
    (hne : getPendingMigrations F w.ledger ≠ [])
    (hread : ∀ p ∈ getPendingMigrations F w.ledger, (fileContent env p.Path).isSome = true)
    (hid : maxID w.ledger + (getPendingMigrations F w.ledger).length < 2 ^ 32)
    (hb : maxBatch w.ledger + 1 < 2 ^ 32)
    (hdb' : ∀ n, env'.dbFails n = false)
    (hdown : ∀ p ∈ getPendingMigrations F w.ledger,
      (fileContent env' (downPath env' p.Name)).isSome = true) :
    (Up env w).1 = .ok ()
    ∧ (Down env' (Up env w).2).1 = .ok ()
    ∧ (Down env' (Up env w).2).2.ledger = w.ledger
    ∧ ∀ r ∈ (Down env' (Up env w).2).2.ledger, r.Batch ≠ maxBatch w.ledger + 1 := by
  have hup : (Up env w).1 = .ok () := by
    rw [pending_eq_pendingOf] at hne hread hid
    rw [Up_ok env w F hF hdb hne (fun p hp => exists_of_isSome (hread p hp)) hid hb]
  rw [Up_then_Down_ok env env' w F hF hdb hne hread hid hb hdb' hdown]
  refine ⟨hup, rfl, rfl, ?_⟩
  intro r hr
  have hr1 : r ∈ w.ledger := hr
  have := le_maxBatch hr1
  omega

/-- Trace of a fully successful `Up` followed by a fully successful `Down`:
the `Up` reads and executes the up files of the pending files `p1, ..., pk` in
this order, the `Down` reads and executes, in the order `pk, ..., p1`, the file
that `rollbackMigration` builds from each name, `MigrationsPath/Name.down.sql`;
along this order the names never go up. -/
theorem Down_trace_after_Up (env env' : Env) (w : World) (F : List MigrationFile)
    (hF : getMigrationFiles env = .ok F)
    (hdb : ∀ n, env.dbFails n = false)
    (hne : getPendingMigrations F w.ledger ≠ [])
    (hread : ∀ p ∈ getPendingMigrations F w.ledger, (fileContent env p.Path).isSome = true)
    (hid : maxID w.ledger + (getPendingMigrations F w.ledger).length < 2 ^ 32)
    (hb : maxBatch w.ledger + 1 < 2 ^ 32)
    (hdb' : ∀ n, env'.dbFails n = false)
    (hdown : ∀ p ∈ getPendingMigrations F w.ledger,
      (fileContent env' (downPath env' p.Name)).isSome = true) :
    (Up env w).1 = .ok ()
    ∧ (Up env w).2.trace = w.trace ++ upEvents env (getPendingMigrations F w.ledger)
    ∧ (Down env' (Up env w).2).1 = .ok ()
    ∧ (Down env' (Up env w).2).2.trace = (Up env w).2.trace
        ++ downEvents env' ((getPendingMigrations F w.ledger).reverse.map (fun p => p.Name))
    ∧ ((getPendingMigrations F w.ledger).reverse.map (fun p => p.Name)).Pairwise
        (fun a b => nameLess a b = false) := by
  have hup : Up env w = (.ok (),
      { ledger := w.ledger ++ newRows env (maxBatch w.ledger + 1) (maxID w.ledger) (w.tick + 3)
          (getPendingMigrations F w.ledger),
        tick := w.tick + 3 + 3 * (getPendingMigrations F w.ledger).length,
        trace := w.trace ++ upEvents env (getPendingMigrations F w.ledger) }) := by
    rw [pending_eq_pendingOf] at hne hread hid ⊢
    exact Up_ok env w F hF hdb hne (fun p hp => exists_of_isSome (hread p hp)) hid hb
  rw [Up_then_Down_ok env env' w F hF hdb hne hread hid hb hdb' hdown, hup]
  exact ⟨rfl, rfl, rfl, rfl, pending_reverse_descending env F w.ledger hF⟩

/-- C2 at the two files `20240101_000000_a` and `20240102_000000_b` on the
empty ledger: two rows, ids 1 and 2, both in batch 1. -/
theorem Up_success_appends_one_batch_witness :
    getMigrationFiles (calmEnv twoFiles) = .ok twoUpFiles
    ∧ getPendingMigrations twoUpFiles emptyWorld.ledger = twoUpFiles
    ∧ (Up (calmEnv twoFiles) emptyWorld).1 = .ok ()
    ∧ (Up (calmEnv twoFiles) emptyWorld).2.ledger =
        [{ ID := 1, Name := "20240101_000000_a", Batch := 1, ExecutedAt := 5 },
         { ID := 2, Name := "20240102_000000_b", Batch := 1, ExecutedAt := 8 }] := by
  have h := Up_success_appends_one_batch (calmEnv twoFiles) emptyWorld twoUpFiles
    (by decide) (fun _ => rfl) (by decide) (by decide) (by decide) (by decide)
  exact ⟨by decide, by decide, h.1, h.2.trans (by decide)⟩

/-- C3 at the two-file scenario: `Up` then `Down` on the empty ledger leaves
the empty ledger. -/
theorem Up_then_Down_restores_ledger_witness :
    getMigrationFiles (calmEnv twoFiles) = .ok twoUpFiles
    ∧ getPendingMigrations twoUpFiles emptyWorld.ledger ≠ []
    ∧ (Down (calmEnv twoFiles) (Up (calmEnv twoFiles) emptyWorld).2).1 = .ok ()
    ∧ (Down (calmEnv twoFiles) (Up (calmEnv twoFiles) emptyWorld).2).2.ledger = [] := by
  have h := Up_then_Down_restores_ledger (calmEnv twoFiles) (calmEnv twoFiles) emptyWorld
    twoUpFiles (by decide) (fun _ => rfl) (by decide) (by decide) (by decide) (by decide)
    (fun _ => rfl) (by decide)
  exact ⟨by decide, by decide, h.2.1, h.2.2.1⟩

/-- The trace of `Up` and `Down` on the two-file scenario: the down script of
`b` is read and executed before the down script of `a`. -/
theorem Down_trace_after_Up_two_files :
    getMigrationFiles (calmEnv twoFiles) = .ok twoUpFiles
    ∧ (Up (calmEnv twoFiles) emptyWorld).2.trace =
        [Event.read "migrations/20240101_000000_a.up.sql", Event.exec "CREATE a",
         Event.read "migrations/20240102_000000_b.up.sql", Event.exec "CREATE b"]
    ∧ (Down (calmEnv twoFiles) (Up (calmEnv twoFiles) emptyWorld).2).2.trace =
        (Up (calmEnv twoFiles) emptyWorld).2.trace ++
        [Event.read "migrations/20240102_000000_b.down.sql", Event.exec "DROP b",
         Event.read "migrations/20240101_000000_a.down.sql", Event.exec "DROP a"] := by
  have h := Down_trace_after_Up (calmEnv twoFiles) (calmEnv twoFiles) emptyWorld
    twoUpFiles (by decide) (fun _ => rfl) (by decide) (by decide) (by decide) (by decide)
    (fun _ => rfl) (by decide)
  exact ⟨by decide, h.2.1.trans (by decide), h.2.2.2.1.trans (by decide)⟩

/-! ## One step of the apply loop, in general -/

/-- Outcome of `applyMigration`: either it fails, leaving the ledger as it was
and having read the file and perhaps executed it, or it succeeds and has
appended one row. -/
theorem applyMigration_cases (env : Env) (f : MigrationFile) (b : Nat) (w : World) :
    (∃ e evs t, applyMigration env f b w = (.error e,
          { ledger := w.ledger, tick := t,
            trace := w.trace ++ Event.read f.Path :: evs } )
        ∧ (evs = [] ∨ evs = [Event.exec ((fileContent env f.Path).getD "")]))
    ∨ applyMigration env f b w = (.ok (),
        { ledger := w.ledger ++ [⟨maxID w.ledger + 1, f.Name, b, env.now (w.tick + 2)⟩],
          tick := w.tick + 3,
          trace := w.trace ++ [Event.read f.Path, Event.exec ((fileContent env f.Path).getD "")] }) := by
  cases hc : fileContent env f.Path with
  | none =>
    left
    exact ⟨.wrap "не удалось прочитать файл" (.io f.Path), [], w.tick,
      by simp [applyMigration, ReadFile, hc], Or.inl rfl⟩
  | some c =>
    by_cases h1 : env.dbFails w.tick = true
    · left
      exact ⟨.wrap "не удалось выполнить SQL" (.db w.tick), [Event.exec c], w.tick + 1,
        by simp [applyMigration, ReadFile, execScript, World.next, hc, h1], Or.inr rfl⟩
    · by_cases h2 : env.dbFails (w.tick + 1) = true
      · left
        exact ⟨.wrap "не удалось получить следующий ID" (.db (w.tick + 1)), [Event.exec c],
          w.tick + 2,
          by simp [applyMigration, ReadFile, execScript, getNextID, World.next, hc, h1, h2],
          Or.inr rfl⟩
      · by_cases h3 : maxID w.ledger + 1 < 4294967296
        · by_cases h4 : env.dbFails (w.tick + 2) = true
          · left
            exact ⟨.db (w.tick + 1 + 1), [Event.exec c], w.tick + 3,
              by simp [applyMigration, ReadFile, execScript, getNextID, insertMigration,
                scanUint32, World.next, hc, h1, h2, h3, h4],
              Or.inr rfl⟩
          · right
            simp [applyMigration, ReadFile, execScript, getNextID, insertMigration,
                scanUint32, World.next, hc, h1, h2, h3, h4]
        · left
          exact ⟨.wrap "не удалось получить следующий ID" (.scan (maxID w.ledger + 1)),
            [Event.exec c], w.tick + 2,
            by simp [applyMigration, ReadFile, execScript, getNextID, scanUint32, World.next,
              hc, h1, h2, h3],
            Or.inr rfl⟩

/-- World left by a loop that returned no error. -/
theorem applyAll_ok_inv (env : Env) (b : Nat) (P : List MigrationFile) (w w1 : World) (u : Unit)
    (h : applyAll env b P w = (.ok u, w1)) :
    w1 = { ledger := w.ledger ++ newRows env b (maxID w.ledger) w.tick P,
           tick := w.tick + 3 * P.length,
           trace := w.trace ++ upEvents env P } := by
  induction P generalizing w with
  | nil =>
    simp only [applyAll, Prod.mk.injEq] at h
    rw [← h.2]
    simp [newRows, upEvents]
  | cons f fs ih =>
    rcases applyMigration_cases env f b w with ⟨e, evs, t, hm, _⟩ | hm
    · simp [applyAll, hm] at h
    · simp only [applyAll, hm] at h
      have h1 := ih _ h
      have hmx : maxID (w.ledger ++ [⟨maxID w.ledger + 1, f.Name, b, env.now (w.tick + 2)⟩])
          = maxID w.ledger + 1 := by
        rw [maxID_append, maxID_singleton]; simp
      rw [h1]
      simp only [hmx, newRows, upEvents, List.flatMap_cons, List.append_assoc,
        List.singleton_append, List.length_cons, List.cons_append, List.nil_append]
      congr 1
      ring

/-- A loop that fails at `pj` after the files `pre` stops there. -/
theorem applyAll_abort (env : Env) (b : Nat) (pre post : List MigrationFile) (pj : MigrationFile)
    (w w1 : World) (e : Err)
    (hpre : applyAll env b pre w = (.ok (), w1))
    (hpj : (applyMigration env pj b w1).1 = .error e) :
    applyAll env b (pre ++ pj :: post) w
      = (.error (.wrap ("не удалось применить миграцию " ++ pj.Name) e),
          (applyMigration env pj b w1).2) := by
  induction pre generalizing w with
  | nil =>
    simp only [applyAll, Prod.mk.injEq, true_and] at hpre
    subst hpre
    simp only [List.nil_append, applyAll]
    rcases hres : applyMigration env pj b w with ⟨r, w2⟩
    rw [hres] at hpj
    simp only at hpj
    subst hpj
    rfl
  | cons f fs ih =>
    rcases applyMigration_cases env f b w with ⟨e1, evs, t, hm, _⟩ | hm
    · simp [applyAll, hm] at hpre
    · simp only [applyAll, hm] at hpre
      simp only [List.cons_append, applyAll, hm]
      exact ih _ hpre

/-- Outcome of the query and row loop: the error of the call, or every row, or
the rows before the stream broke. -/
theorem readRows_cases (env : Env) (rows : List Migration) (w : World) :
    readRows env rows w = (.error (.db w.tick), w.next)
    ∨ ∃ applied, readRows env rows w = (.ok applied, w.next)
        ∧ (applied = rows
          ∨ ∃ n, env.rowsBeforeFailure w.tick = some n ∧ applied = rows.take n) := by
  unfold readRows
  by_cases h0 : env.dbFails w.tick = true
  · cases hn : env.rowsBeforeFailure w.tick with
    | none => left; simp [h0]
    | some n => right; exact ⟨rows.take n, by simp [h0], Or.inr ⟨n, rfl, rfl⟩⟩
  · right
    exact ⟨rows, by simp [h0], Or.inl rfl⟩

/-- The rows that came out of the loop are rows of the table. -/
theorem listed_subset {env : Env} {t : Nat} {L applied : List Migration}
    (h : applied = orderByID L
      ∨ ∃ n, env.rowsBeforeFailure t = some n ∧ applied = (orderByID L).take n) :
    ∀ r ∈ applied, r ∈ L := by
  intro r hr
  rcases h with h | ⟨n, _, h⟩
  · rw [h] at hr
    exact mem_orderByID.mp hr
  · rw [h] at hr
    exact mem_orderByID.mp (List.mem_of_mem_take hr)

/-- When a failing row query reports its error, the rows that came out of the
loop are all the rows. -/
theorem listed_complete {env : Env} {t : Nat} {L applied : List Migration}
    (hcut : env.rowsBeforeFailure t = none)
    (h : applied = orderByID L
      ∨ ∃ n, env.rowsBeforeFailure t = some n ∧ applied = (orderByID L).take n) :
    applied = orderByID L := by
  rcases h with h | ⟨n, hn, _⟩
  · exact h
  · rw [hcut] at hn
    cases hn

/-- Outcome of `upPlan`: an error, nothing pending, or a plan.  The ledger and
the trace are untouched; `applied` is what the row loop of
`getAppliedMigrations` returned. -/
theorem upPlan_cases (env : Env) (w : World) :
    (∃ e t, upPlan env w = (.error e, { w with tick := t }))
    ∨ (∃ F applied, getMigrationFiles env = .ok F
        ∧ (applied = orderByID w.ledger
          ∨ ∃ n, env.rowsBeforeFailure (w.tick + 1) = some n
              ∧ applied = (orderByID w.ledger).take n)
        ∧ getPendingMigrations F applied = []
        ∧ upPlan env w = (.ok none, { w with tick := w.tick + 2 }))
    ∨ (∃ F applied, getMigrationFiles env = .ok F
        ∧ (applied = orderByID w.ledger
          ∨ ∃ n, env.rowsBeforeFailure (w.tick + 1) = some n
              ∧ applied = (orderByID w.ledger).take n)
        ∧ getPendingMigrations F applied ≠ []
        ∧ upPlan env w = (.ok (some (getPendingMigrations F applied, maxBatch w.ledger + 1)),
            { w with tick := w.tick + 3 })) := by
  by_cases h0 : env.dbFails w.tick = true
  · left
    exact ⟨.wrap "не удалось создать таблицу миграций" (.db w.tick), w.tick + 1,
      by simp [upPlan, createMigrationsTable, h0, World.next]⟩
  · cases hF : getMigrationFiles env with
    | error e =>
      left
      exact ⟨.wrap "не удалось получить файлы миграций" e, w.tick + 1,
        by simp [upPlan, createMigrationsTable, h0, hF, World.next]⟩
    | ok F =>
      rcases readRows_cases env (orderByID w.ledger) w.next with hr | ⟨applied, hr, hl⟩
      · left
        exact ⟨.wrap "не удалось получить применённые миграции" (.db (w.tick + 1)),
          w.tick + 1 + 1, by
          simp only [World.next] at hr
          simp [upPlan, createMigrationsTable, getAppliedMigrations, h0, hF, World.next, hr]⟩
      · simp only [World.next] at hr hl
        by_cases hp : getPendingMigrations F applied = []
        · right; left
          exact ⟨F, applied, rfl, hl, hp, by
            simp [upPlan, createMigrationsTable, getAppliedMigrations, h0, hF, World.next, hr,
              hp]⟩
        · have hlen : ¬ (getPendingMigrations F applied).length = 0 := by
            intro h
            exact hp (List.length_eq_zero.mp h)
          by_cases h2 : env.dbFails (w.tick + 1 + 1) = true
          · left
            exact ⟨.wrap "не удалось получить номер batch" (.db (w.tick + 1 + 1)),
              w.tick + 1 + 1 + 1, by
              simp [upPlan, createMigrationsTable, getAppliedMigrations, getNextBatch, h0, hF,
                World.next, hr, hlen, h2]⟩
          · by_cases hs : maxBatch w.ledger + 1 < 4294967296
            · right; right
              exact ⟨F, applied, rfl, hl, hp, by
                simp [upPlan, createMigrationsTable, getAppliedMigrations, getNextBatch,
                  scanUint32, h0, hF, World.next, hr, hlen, h2, hs]⟩
            · left
              exact ⟨.wrap "не удалось получить номер batch" (.scan (maxBatch w.ledger + 1)),
                w.tick + 1 + 1 + 1, by
                simp [upPlan, createMigrationsTable, getAppliedMigrations, getNextBatch,
                  scanUint32, h0, hF, World.next, hr, hlen, h2, hs]⟩

/-- `upPlan` touches neither the ledger nor the trace. -/
theorem upPlan_world (env : Env) (w : World) :
    (upPlan env w).2.ledger = w.ledger ∧ (upPlan env w).2.trace = w.trace := by
  rcases upPlan_cases env w with ⟨e, t, h⟩ | ⟨F, applied, _, _, _, h⟩ | ⟨F, applied, _, _, _, h⟩
  · rw [h]; exact ⟨rfl, rfl⟩
  · rw [h]; exact ⟨rfl, rfl⟩
  · rw [h]; exact ⟨rfl, rfl⟩

/-- What `upPlan` has computed when it returns a plan. -/
theorem upPlan_some_inv (env : Env) (w w0 : World) (P : List MigrationFile) (b : Nat)
    (h : upPlan env w = (.ok (some (P, b)), w0)) :
    ∃ F applied, getMigrationFiles env = .ok F
      ∧ (applied = orderByID w.ledger
        ∨ ∃ n, env.rowsBeforeFailure (w.tick + 1) = some n
            ∧ applied = (orderByID w.ledger).take n)
      ∧ P = getPendingMigrations F applied
      ∧ P ≠ []
      ∧ b = maxBatch w.ledger + 1
      ∧ w0 = { w with tick := w.tick + 3 } := by
  rcases upPlan_cases env w with ⟨e, t, hc⟩ | ⟨F, applied, _, _, _, hc⟩
    | ⟨F, applied, hF, hl, hp, hc⟩
  · rw [hc] at h; cases h
  · rw [hc] at h; cases h
  · rw [hc] at h
    cases h
    exact ⟨F, applied, hF, hl, rfl, hp, rfl, rfl⟩

/-! ## Aborted runs -/

/-- C9: when `Up` has planned the pending files `pre ++ pj :: post` with batch
`b`, the loop succeeds on `pre` and `applyMigration` fails on `pj` (file read,
script execution, next-id query or insert), then `Up` returns that error
wrapped, the ledger is the old ledger followed by one row for each file of
`pre`, all with batch `b = maxBatch L + 1`, and the trace ends with the read of
`pj` and perhaps its execution: nothing of `post` is read or executed, no row
for `pj` or `post` is inserted, and no row is removed. -/
theorem Up_aborts_on_first_failure (env : Env) (w w0 w1 : World)
    (pre post : List MigrationFile) (pj : MigrationFile) (b : Nat) (e : Err)
    (hplan : upPlan env w = (.ok (some (pre ++ pj :: post, b)), w0))
    (hpre : applyAll env b pre w0 = (.ok (), w1))
    (hpj : (applyMigration env pj b w1).1 = .error e) :
    (Up env w).1 = .error (.wrap ("не удалось применить миграцию " ++ pj.Name) e)
    ∧ b = maxBatch w.ledger + 1
    ∧ (Up env w).2.ledger = w.ledger ++ pre.enum.map (fun ip =>
        { ID := maxID w.ledger + (ip.1 + 1), Name := ip.2.Name, Batch := b,
          ExecutedAt := env.now (w.tick + 3 + 3 * ip.1 + 2) })
    ∧ ∃ evs, (Up env w).2.trace = w.trace ++ upEvents env pre ++ Event.read pj.Path :: evs
        ∧ (evs = [] ∨ evs = [Event.exec ((fileContent env pj.Path).getD "")]) := by
  obtain ⟨F, applied, _, _, _, _, hb, hw0⟩ := upPlan_some_inv env w w0 _ b hplan
  have hw1 := applyAll_ok_inv env b pre w0 w1 () hpre
  have hup : Up env w = (.error (.wrap ("не удалось применить миграцию " ++ pj.Name) e),
      (applyMigration env pj b w1).2) := by
    simp only [Up, hplan]
    exact applyAll_abort env b pre post pj w0 w1 e hpre hpj
  have henum := newRows_eq_enum env b pre (maxID w.ledger) (w.tick + 3) 0
  simp only [Nat.add_zero, Nat.mul_zero] at henum
  have hl1 : w1.ledger = w.ledger ++ newRows env b (maxID w.ledger) (w.tick + 3) pre := by
    rw [hw1, hw0]
  have ht1 : w1.trace = w.trace ++ upEvents env pre := by
    rw [hw1, hw0]
  rw [hup]
  refine ⟨rfl, hb, ?_, ?_⟩
  · rcases applyMigration_cases env pj b w1 with ⟨e1, evs, t, hm, _⟩ | hm
    · rw [hm]
      simp only [hl1, henum]
      rfl
    · rw [hm] at hpj
      cases hpj
  · rcases applyMigration_cases env pj b w1 with ⟨e1, evs, t, hm, hevs⟩ | hm
    · rw [hm]
      exact ⟨evs, by simp only [ht1], hevs⟩
    · rw [hm] at hpj
      cases hpj

/-- C9 on a directory whose second up file cannot be read: the row of the
first file stays, the call returns the read error. -/
theorem Up_aborts_on_first_failure_witness :
    (Up (calmEnv secondUnreadable) emptyWorld).1
      = .error (.wrap ("не удалось применить миграцию " ++ "20240102_000000_b")
          (.wrap "не удалось прочитать файл" (.io "migrations/20240102_000000_b.up.sql")))
    ∧ (Up (calmEnv secondUnreadable) emptyWorld).2.ledger
      = [{ ID := 1, Name := "20240101_000000_a", Batch := 1, ExecutedAt := 5 }]
    ∧ (Up (calmEnv secondUnreadable) emptyWorld).2.trace
      = [Event.read "migrations/20240101_000000_a.up.sql", Event.exec "CREATE a",
         Event.read "migrations/20240102_000000_b.up.sql"] := by
  have h := Up_aborts_on_first_failure (calmEnv secondUnreadable) emptyWorld
    { ledger := [], tick := 3, trace := [] }
    { ledger := [{ ID := 1, Name := "20240101_000000_a", Batch := 1, ExecutedAt := 5 }],
      tick := 6,
      trace := [Event.read "migrations/20240101_000000_a.up.sql", Event.exec "CREATE a"] }
    [{ Name := "20240101_000000_a", Path := "migrations/20240101_000000_a.up.sql" }] []
    { Name := "20240102_000000_b", Path := "migrations/20240102_000000_b.up.sql" } 1
    (.wrap "не удалось прочитать файл" (.io "migrations/20240102_000000_b.up.sql"))
    (by decide) (by decide) (by decide)
  exact ⟨h.1, h.2.2.1.trans (by decide), by decide⟩

/-! ## What any invocation does to the ledger -/

/-- Whatever happens, the loop appends the rows of the files it got through;
if it returns no error these are all the files. -/
theorem applyAll_rows (env : Env) (b : Nat) (P : List MigrationFile) (w : World) :
    ∃ pre, (applyAll env b P w).2.ledger = w.ledger ++ newRows env b (maxID w.ledger) w.tick pre
      ∧ ((applyAll env b P w).1 = .ok () → pre = P) := by
  induction P generalizing w with
  | nil => exact ⟨[], by simp [applyAll, newRows], fun _ => rfl⟩
  | cons f fs ih =>
    rcases applyMigration_cases env f b w with ⟨e, evs, t, hm, _⟩ | hm
    · refine ⟨[], ?_, ?_⟩
      · simp [applyAll, hm, newRows]
      · intro h
        simp [applyAll, hm] at h
    · obtain ⟨pre, h1, h2⟩ := ih
        { ledger := w.ledger ++ [⟨maxID w.ledger + 1, f.Name, b, env.now (w.tick + 2)⟩],
          tick := w.tick + 3,
          trace := w.trace ++ [Event.read f.Path, Event.exec ((fileContent env f.Path).getD "")] }
      have hmx : maxID (w.ledger ++ [⟨maxID w.ledger + 1, f.Name, b, env.now (w.tick + 2)⟩])
          = maxID w.ledger + 1 := by
        rw [maxID_append, maxID_singleton]; simp
      refine ⟨f :: pre, ?_, ?_⟩
      · simp only [applyAll, hm]
        rw [h1]
        simp only [hmx, newRows, List.append_assoc, List.singleton_append]
      · intro h
        simp only [applyAll, hm] at h
        rw [h2 h]

/-- Whatever happens, `Up` only appends rows: they carry the batch number
`maxBatch L + 1` and ids that go up from `maxID L + 1`. -/
theorem Up_rows (env : Env) (w : World) :
    ∃ pre, (Up env w).2.ledger
      = w.ledger ++ newRows env (maxBatch w.ledger + 1) (maxID w.ledger) (w.tick + 3) pre := by
  rcases hplan : upPlan env w with ⟨r, w0⟩
  have hw := upPlan_world env w
  rw [hplan] at hw
  cases r with
  | error e => exact ⟨[], by simpa [Up, hplan, newRows] using hw.1⟩
  | ok o =>
    cases o with
    | none => exact ⟨[], by simpa [Up, hplan, newRows] using hw.1⟩
    | some pb =>
      obtain ⟨P, b⟩ := pb
      obtain ⟨F, applied, _, _, _, _, hb, hw0⟩ := upPlan_some_inv env w w0 P b hplan
      obtain ⟨pre, h1, _⟩ := applyAll_rows env b P w0
      refine ⟨pre, ?_⟩
      simp only [Up, hplan]
      rw [h1, hw0, hb]

theorem runUps_cons (env : Env) (envs : List Env) (w : World) :
    runUps (env :: envs) w = runUps envs (Up env w).2 := rfl

/-- A sequence of `Up` invocations keeps every row it finds. -/
theorem runUps_keeps (envs : List Env) (w : World) :
    ∃ rows, (runUps envs w).ledger = w.ledger ++ rows := by
  induction envs generalizing w with
  | nil => exact ⟨[], by simp [runUps]⟩
  | cons env rest ih =>
    obtain ⟨pre, h1⟩ := Up_rows env w
    obtain ⟨rows, h2⟩ := ih (Up env w).2
    refine ⟨newRows env (maxBatch w.ledger + 1) (maxID w.ledger) (w.tick + 3) pre ++ rows, ?_⟩
    rw [runUps_cons, h2, h1, List.append_assoc]

/-- Whatever happens, `rollbackMigration` removes rows or leaves the ledger. -/
theorem rollbackMigration_sublist (env : Env) (m : Migration) (w : World) :
    List.Sublist (rollbackMigration env m w).2.ledger w.ledger := by
  unfold rollbackMigration ReadFile execScript deleteMigration
  cases hc : fileContent env (downPath env m.Name) with
  | none => simp
  | some c =>
    by_cases h1 : env.dbFails w.tick = true
    · simp [h1, World.next]
    · by_cases h2 : env.dbFails (w.tick + 1) = true
      · simp [h1, h2, World.next]
      · simp [h1, h2, World.next]

theorem rollbackAll_sublist (env : Env) (rs : List Migration) (w : World) :
    List.Sublist (rollbackAll env rs w).2.ledger w.ledger := by
  induction rs generalizing w with
  | nil => simp [rollbackAll]
  | cons m rest ih =>
    have h1 := rollbackMigration_sublist env m w
    rcases hres : rollbackMigration env m w with ⟨r, w1⟩
    rw [hres] at h1
    cases r with
    | error e => simpa [rollbackAll, hres] using h1
    | ok u =>
      simp only [rollbackAll, hres]
      exact (ih w1).trans h1

/-- Whatever happens, `Down` removes rows or leaves the ledger. -/
theorem Down_sublist (env : Env) (w : World) :
    List.Sublist (Down env w).2.ledger w.ledger := by
  unfold Down getLastBatch getMigrationsByBatch
  by_cases h0 : env.dbFails w.tick = true
  · simp [h0, World.next]
  · cases hs : scanUint32 (maxBatch w.ledger) with
    | error e => simp [h0, hs, World.next]
    | ok v =>
      by_cases hv : v = 0
      · simp [h0, hs, hv, World.next]
      · rcases readRows_cases env (orderByID (w.ledger.filter (fun r => r.Batch = v))) w.next
          with hr | ⟨applied, hr, _⟩
        · simp only [World.next] at hr
          simp [h0, hs, hv, hr, World.next]
        · simp only [World.next] at hr
          simp only [h0, hs, hv, hr, World.next, if_false, Bool.false_eq_true]
          exact rollbackAll_sublist env _ _

theorem Up_idsAscend (env : Env) (w : World) (h : IdsAscend w) : IdsAscend (Up env w).2 := by
  obtain ⟨pre, h1⟩ := Up_rows env w
  unfold IdsAscend
  rw [h1, List.pairwise_append]
  refine ⟨h, newRows_sorted env _ pre _ _, ?_⟩
  intro a ha c hc
  exact Nat.lt_of_le_of_lt (le_maxID ha) (newRows_id_gt env _ pre _ _ c hc)

theorem Down_idsAscend (env : Env) (w : World) (h : IdsAscend w) : IdsAscend (Down env w).2 :=
  List.Pairwise.sublist (Down_sublist env w) h

theorem runCmds_idsAscend (cmds : List (Cmd × Env)) (w : World) (h : IdsAscend w) :
    IdsAscend (runCmds cmds w) := by
  induction cmds generalizing w with
  | nil => exact h
  | cons c rest ih =>
    have hstep : IdsAscend (step w c) := by
      obtain ⟨cmd, env⟩ := c
      cases cmd with
      | up => exact Up_idsAscend env w h
      | down => exact Down_idsAscend env w h
    exact ih (step w c) hstep

/-! ## Batch numbers along a sequence of `Up` invocations -/

theorem upPlan_fst_inv (env : Env) (w : World) (P : List MigrationFile) (b : Nat)
    (h : (upPlan env w).1 = .ok (some (P, b))) :
    ∃ F applied, getMigrationFiles env = .ok F
      ∧ (applied = orderByID w.ledger
        ∨ ∃ n, env.rowsBeforeFailure (w.tick + 1) = some n
            ∧ applied = (orderByID w.ledger).take n)
      ∧ P = getPendingMigrations F applied
      ∧ P ≠ []
      ∧ b = maxBatch w.ledger + 1
      ∧ (upPlan env w).2 = { w with tick := w.tick + 3 } :=
  upPlan_some_inv env w (upPlan env w).2 P b (Prod.ext h rfl)

/-- C5, corrected: the batch number that an `Up` invocation with a non-empty
pending list computes is greater than the batch number of every row in the
ledger at that moment; hence it is greater than the batch number of every
earlier invocation of the sequence that inserted at least one row.  (An earlier
invocation that aborted before its first insert left no row, and its number is
computed again.) -/
theorem batch_exceeds_ledger_and_earlier_inserting (envI envJ : Env) (mids : List Env)
    (w : World) (P Pj : List MigrationFile) (b bj : Nat)
    (hi : (upPlan envI w).1 = .ok (some (P, b)))
    (hins : (Up envI w).2.ledger ≠ w.ledger)
    (hj : (upPlan envJ (runUps mids (Up envI w).2)).1 = .ok (some (Pj, bj))) :
    (∀ r ∈ w.ledger, r.Batch < b)
    ∧ (∀ r ∈ (runUps mids (Up envI w).2).ledger, r.Batch < bj)
    ∧ b < bj := by
  obtain ⟨_, _, _, _, _, _, hb, _⟩ := upPlan_fst_inv envI w P b hi
  obtain ⟨_, _, _, _, _, _, hbj, _⟩ := upPlan_fst_inv envJ _ Pj bj hj
  have h1 : ∀ r ∈ w.ledger, r.Batch < b := by
    intro r hr
    have := le_maxBatch hr
    omega
  have h2 : ∀ r ∈ (runUps mids (Up envI w).2).ledger, r.Batch < bj := by
    intro r hr
    have := le_maxBatch hr
    omega
  refine ⟨h1, h2, ?_⟩
  obtain ⟨pre, hpre⟩ := Up_rows envI w
  obtain ⟨rows, hrows⟩ := runUps_keeps mids (Up envI w).2
  cases pre with
  | nil =>
    exfalso
    apply hins
    rw [hpre]
    simp [newRows]
  | cons f fs =>
    have hmem : (⟨maxID w.ledger + 1, f.Name, maxBatch w.ledger + 1, envI.now (w.tick + 3 + 2)⟩
        : Migration) ∈ (runUps mids (Up envI w).2).ledger := by
      rw [hrows, hpre]
      simp [newRows]
    have := h2 _ hmem
    simp only at this
    omega

/-- C5 as stated fails: on a directory whose up file cannot be read, two
consecutive `Up` invocations both have the pending list of one file and both
compute batch number 1. -/
theorem batch_number_repeats_after_abort :
    (upPlan (calmEnv firstUnreadable) emptyWorld).1
      = .ok (some ([{ Name := "20240101_000000_a",
                      Path := "migrations/20240101_000000_a.up.sql" }], 1))
    ∧ (Up (calmEnv firstUnreadable) emptyWorld).2.ledger = []
    ∧ (upPlan (calmEnv firstUnreadable) (Up (calmEnv firstUnreadable) emptyWorld).2).1
      = .ok (some ([{ Name := "20240101_000000_a",
                      Path := "migrations/20240101_000000_a.up.sql" }], 1)) := by
  decide

/-- C5, corrected, on the two-file directory followed by the three-file
directory: batch 1, then batch 2. -/
theorem batch_exceeds_ledger_and_earlier_inserting_witness :
    (upPlan (calmEnv twoFiles) emptyWorld).1 = .ok (some (twoUpFiles, 1))
    ∧ (Up (calmEnv twoFiles) emptyWorld).2.ledger ≠ emptyWorld.ledger
    ∧ (upPlan (calmEnv threeFiles) (runUps [] (Up (calmEnv twoFiles) emptyWorld).2)).1
        = .ok (some ([{ Name := "20240103_000000_c",
                        Path := "migrations/20240103_000000_c.up.sql" }], 2))
    ∧ (1 : Nat) < 2 :=
  ⟨by decide, by decide, by decide,
    (batch_exceeds_ledger_and_earlier_inserting (calmEnv twoFiles) (calmEnv threeFiles) []
      emptyWorld twoUpFiles
      [{ Name := "20240103_000000_c", Path := "migrations/20240103_000000_c.up.sql" }] 1 2
      (by decide) (by decide) (by decide)).2.2⟩

/-! ## Repeating `Up` -/

theorem upPlan_none_inv (env : Env) (w : World)
    (h : (upPlan env w).1 = .ok none) :
    ∃ F applied, getMigrationFiles env = .ok F
      ∧ (applied = orderByID w.ledger
        ∨ ∃ n, env.rowsBeforeFailure (w.tick + 1) = some n
            ∧ applied = (orderByID w.ledger).take n)
      ∧ getPendingMigrations F applied = [] := by
  rcases upPlan_cases env w with ⟨e, t, hc⟩ | ⟨F, applied, hF, hl, hp, _⟩
    | ⟨F, applied, _, _, _, hc⟩
  · rw [hc] at h; cases h
  · exact ⟨F, applied, hF, hl, hp⟩
  · rw [hc] at h; cases h

theorem pendingOf_eq_nil_iff (F : List MigrationFile) (L : List Migration) :
    pendingOf F L = [] ↔ ∀ f ∈ F, f.Name ∈ L.map (fun r => r.Name) := by
  unfold pendingOf
  rw [List.filter_eq_nil_iff]
  simp only [decide_eq_true_eq, not_not]

theorem names_subset {applied L : List Migration} (h : ∀ r ∈ applied, r ∈ L) {name : String}
    (hn : name ∈ applied.map (fun r => r.Name)) : name ∈ L.map (fun r => r.Name) := by
  obtain ⟨r, hr, hre⟩ := List.mem_map.mp hn
  exact List.mem_map.mpr ⟨r, h r hr, hre⟩

/-- After an `Up` that returned no error every discovered file is named by a
row of the ledger, also when the row loop of that call lost rows. -/
theorem Up_ok_covers (env : Env) (w : World) (F : List MigrationFile)
    (hF : getMigrationFiles env = .ok F) (hok : (Up env w).1 = .ok ()) :
    pendingOf F (Up env w).2.ledger = [] := by
  rw [pendingOf_eq_nil_iff]
  rcases hplan : upPlan env w with ⟨r, w0⟩
  have hw := upPlan_world env w
  rw [hplan] at hw
  cases r with
  | error e => simp [Up, hplan] at hok
  | ok o =>
    cases o with
    | none =>
      obtain ⟨F1, applied, hF1, hl, hnil⟩ := upPlan_none_inv env w (by rw [hplan])
      rw [hF] at hF1
      cases hF1
      rw [pending_eq_pendingOf, pendingOf_eq_nil_iff] at hnil
      have hled : (Up env w).2.ledger = w.ledger := by simpa [Up, hplan] using hw.1
      rw [hled]
      intro f hf
      exact names_subset (listed_subset hl) (hnil f hf)
    | some pb =>
      obtain ⟨P, b⟩ := pb
      obtain ⟨F1, applied, hF1, hl, hP, _, hb, hw0⟩ := upPlan_some_inv env w w0 P b hplan
      rw [hF] at hF1
      cases hF1
      obtain ⟨pre, h1, h2⟩ := applyAll_rows env b P w0
      have hup : Up env w = applyAll env b P w0 := by simp only [Up, hplan]
      rw [hup] at hok ⊢
      rw [h1, h2 hok, hw0]
      intro f hf
      simp only [List.map_append, List.mem_append, newRows_names]
      by_cases hn : f.Name ∈ applied.map (fun r => r.Name)
      · exact Or.inl (names_subset (listed_subset hl) hn)
      · right
        apply List.mem_map_of_mem
        rw [hP, pending_eq_pendingOf]
        unfold pendingOf
        rw [List.mem_filter]
        exact ⟨hf, by simpa using hn⟩

/-- An `Up` that finds every discovered file named in the ledger changes no
row, provided its row loop returns an error or every row. -/
theorem Up_noop_of_covered (env : Env) (w : World) (F : List MigrationFile)
    (hF : getMigrationFiles env = .ok F) (hnil : pendingOf F w.ledger = [])
    (hcut : env.rowsBeforeFailure (w.tick + 1) = none) :
    (Up env w).2.ledger = w.ledger := by
  rcases hplan : upPlan env w with ⟨r, w0⟩
  have hw := upPlan_world env w
  rw [hplan] at hw
  cases r with
  | error e => simpa [Up, hplan] using hw.1
  | ok o =>
    cases o with
    | none => simpa [Up, hplan] using hw.1
    | some pb =>
      obtain ⟨P, b⟩ := pb
      obtain ⟨F1, applied, hF1, hl, hP, hne, _, _⟩ := upPlan_some_inv env w w0 P b hplan
      rw [hF] at hF1
      cases hF1
      rw [listed_complete hcut hl, getPendingMigrations_orderByID, hnil] at hP
      exact absurd hP hne

/-- What `Status` reports when it returns and its row loop did not lose
rows. -/
theorem Status_report (env : Env) (w : World) (F : List MigrationFile) (rep : StatusReport)
    (hF : getMigrationFiles env = .ok F) (hcut : env.rowsBeforeFailure (w.tick + 1) = none)
    (h : (Status env w).1 = .ok rep) :
    rep.pending = getPendingMigrations F (orderByID w.ledger)
    ∧ rep.applied = orderByID w.ledger
    ∧ rep.lastBatch = maxBatch w.ledger := by
  unfold Status createMigrationsTable getAppliedMigrations getLastBatch at h
  by_cases h0 : env.dbFails w.tick = true
  · simp [h0, World.next] at h
  · rcases readRows_cases env (orderByID w.ledger) w.next with hr | ⟨applied, hr, hl⟩
    · simp only [World.next] at hr
      simp [h0, hF, hr, World.next] at h
    · simp only [World.next] at hr hl
      have happ := listed_complete hcut hl
      subst happ
      by_cases h2 : env.dbFails (w.tick + 1 + 1) = true
      · simp [h0, hF, hr, h2, World.next] at h
      · by_cases hs : maxBatch w.ledger < 4294967296
        · simp [h0, hF, hr, h2, hs, scanUint32, World.next] at h
          rw [← h]
          exact ⟨rfl, rfl, rfl⟩
        · simp [h0, hF, hr, h2, hs, scanUint32, World.next] at h

/-- C6, corrected: when the first `Up` returns no error, a second `Up` over the
same file list whose row loop returns an error or every applied row leaves the
ledger as the first call left it, the pending list that the second call
computes is empty, so it plans nothing, and a following `Status` over the same
file list, with the same proviso on its row loop, reports no pending file.
(What happens when the row stream breaks without an error is left open.) -/
theorem Up_twice_after_success (env1 env2 env3 : Env) (w : World) (F : List MigrationFile)
    (hF1 : getMigrationFiles env1 = .ok F) (hF2 : getMigrationFiles env2 = .ok F)
    (hF3 : getMigrationFiles env3 = .ok F)
    (hok : (Up env1 w).1 = .ok ())
    (hrows2 : ∀ t, env2.rowsBeforeFailure t = none)
    (hrows3 : ∀ t, env3.rowsBeforeFailure t = none) :
    (Up env2 (Up env1 w).2).2.ledger = (Up env1 w).2.ledger
    ∧ getPendingMigrations F (orderByID (Up env1 w).2.ledger) = []
    ∧ (∀ P b, (upPlan env2 (Up env1 w).2).1 ≠ .ok (some (P, b)))
    ∧ (∀ rep, (Status env3 (Up env2 (Up env1 w).2).2).1 = .ok rep → rep.pending.length = 0) := by
  have hcov := Up_ok_covers env1 w F hF1 hok
  have hsame := Up_noop_of_covered env2 (Up env1 w).2 F hF2 hcov (hrows2 _)
  refine ⟨hsame, ?_, ?_, ?_⟩
  · rw [getPendingMigrations_orderByID]
    exact hcov
  · intro P b hplan
    obtain ⟨F1, applied, hF1', hl, hP, hne, _, _⟩ := upPlan_fst_inv env2 _ P b hplan
    rw [hF2] at hF1'
    cases hF1'
    rw [listed_complete (hrows2 _) hl, getPendingMigrations_orderByID, hcov] at hP
    exact hne hP
  · intro rep hrep
    have h := (Status_report env3 _ F rep hF3 (hrows3 _) hrep).1
    rw [getPendingMigrations_orderByID, hsame, hcov] at h
    rw [h]
    rfl

/-- C6 as stated fails.  When the first script execution of the first `Up`
fails, the call returns an error with no row inserted; the second `Up` over the
same files has both files pending and inserts two rows.  And after a first `Up`
that returned no error, a second `Up` whose row query loses its stream before
the first row (an error that the loop of lines 227-236 does not see) takes both
files for pending and inserts them again. -/
theorem Up_twice_not_idempotent :
    getMigrationFiles flakyEnv = .ok twoUpFiles
    ∧ (Up flakyEnv emptyWorld).1
        = .error (.wrap ("не удалось применить миграцию " ++ "20240101_000000_a")
            (.wrap "не удалось выполнить SQL" (.db 3)))
    ∧ (Up flakyEnv emptyWorld).2.ledger = []
    ∧ (upPlan flakyEnv (Up flakyEnv emptyWorld).2).1 = .ok (some (twoUpFiles, 1))
    ∧ (Up flakyEnv (Up flakyEnv emptyWorld).2).2.ledger
        = [{ ID := 1, Name := "20240101_000000_a", Batch := 1, ExecutedAt := 9 },
           { ID := 2, Name := "20240102_000000_b", Batch := 1, ExecutedAt := 12 }]
    ∧ getMigrationFiles brokenListingEnv = .ok twoUpFiles
    ∧ (Up (calmEnv twoFiles) emptyWorld).1 = .ok ()
    ∧ (upPlan brokenListingEnv (Up (calmEnv twoFiles) emptyWorld).2).1
        = .ok (some (twoUpFiles, 2))
    ∧ (Up brokenListingEnv (Up (calmEnv twoFiles) emptyWorld).2).2.ledger
        = [{ ID := 1, Name := "20240101_000000_a", Batch := 1, ExecutedAt := 5 },
           { ID := 2, Name := "20240102_000000_b", Batch := 1, ExecutedAt := 8 },
           { ID := 3, Name := "20240101_000000_a", Batch := 2, ExecutedAt := 14 },
           { ID := 4, Name := "20240102_000000_b", Batch := 2, ExecutedAt := 17 }] := by
  decide

/-- C6, corrected, on the two-file directory: the second `Up` keeps the two
rows of the first. -/
theorem Up_twice_after_success_witness :
    (Up (calmEnv twoFiles) emptyWorld).1 = .ok ()
    ∧ (Up (calmEnv twoFiles) (Up (calmEnv twoFiles) emptyWorld).2).2.ledger
        = (Up (calmEnv twoFiles) emptyWorld).2.ledger
    ∧ getPendingMigrations twoUpFiles (orderByID (Up (calmEnv twoFiles) emptyWorld).2.ledger)
        = [] :=
  have h := Up_twice_after_success (calmEnv twoFiles) (calmEnv twoFiles) (calmEnv twoFiles)
    emptyWorld twoUpFiles (by decide) (by decide) (by decide) (by decide) (fun _ => rfl)
    (fun _ => rfl)
  ⟨by decide, h.1, h.2.1⟩

/-! ## Ids along a run -/

/-- C7, corrected: in every run of `Up` and `Down` invocations from the empty
ledger, successful or aborted, the ids of the rows in the ledger go up strictly
in insertion order, so no two rows present at the same time share an id, and
the id that `getNextID` yields is greater than the id of every row present.
(The id of a row that a `Down` has deleted can be given again.) -/
theorem ids_fresh_among_present (cmds : List (Cmd × Env)) :
    (runCmds cmds emptyWorld).ledger.Pairwise (fun a b => a.ID < b.ID)
    ∧ ((runCmds cmds emptyWorld).ledger.map (fun r => r.ID)).Nodup
    ∧ (∀ env id, (getNextID env (runCmds cmds emptyWorld)).1 = .ok id →
        ∀ r ∈ (runCmds cmds emptyWorld).ledger, r.ID < id) := by
  have h : IdsAscend (runCmds cmds emptyWorld) :=
    runCmds_idsAscend cmds emptyWorld List.Pairwise.nil
  refine ⟨h, ?_, ?_⟩
  · rw [List.Nodup, List.pairwise_map]
    exact List.Pairwise.imp (fun hab => Nat.ne_of_lt hab) h
  · intro env id hid r hr
    have hle := le_maxID hr
    unfold getNextID scanUint32 at hid
    by_cases h0 : env.dbFails (runCmds cmds emptyWorld).tick = true
    · simp [h0] at hid
    · by_cases hs : maxID (runCmds cmds emptyWorld).ledger + 1 < 4294967296
      · simp [h0, hs] at hid
        omega
      · simp [h0, hs] at hid

/-- C7 as stated fails: `Up`, `Down`, `Up` on the two-file directory gives the
ids 1 and 2 a second time, to rows inserted later. -/
theorem ids_reused_after_rollback :
    (runCmds [(Cmd.up, calmEnv twoFiles)] emptyWorld).ledger
      = [{ ID := 1, Name := "20240101_000000_a", Batch := 1, ExecutedAt := 5 },
         { ID := 2, Name := "20240102_000000_b", Batch := 1, ExecutedAt := 8 }]
    ∧ (runCmds [(Cmd.up, calmEnv twoFiles), (Cmd.down, calmEnv twoFiles)] emptyWorld).ledger = []
    ∧ (runCmds [(Cmd.up, calmEnv twoFiles), (Cmd.down, calmEnv twoFiles),
          (Cmd.up, calmEnv twoFiles)] emptyWorld).ledger
      = [{ ID := 1, Name := "20240101_000000_a", Batch := 1, ExecutedAt := 20 },
         { ID := 2, Name := "20240102_000000_b", Batch := 1, ExecutedAt := 23 }] := by
  decide

/-! ## Names along a run, when each walk finds distinct names and no row loop
loses rows -/

/-- The files the loop got through are an initial part of the pending list. -/
theorem applyAll_rows_split (env : Env) (b : Nat) (P : List MigrationFile) (w : World) :
    ∃ pre rest, P = pre ++ rest
      ∧ (applyAll env b P w).2.ledger
          = w.ledger ++ newRows env b (maxID w.ledger) w.tick pre := by
  induction P generalizing w with
  | nil => exact ⟨[], [], rfl, by simp [applyAll, newRows]⟩
  | cons f fs ih =>
    rcases applyMigration_cases env f b w with ⟨e, evs, t, hm, _⟩ | hm
    · exact ⟨[], f :: fs, rfl, by simp [applyAll, hm, newRows]⟩
    · obtain ⟨pre, rest, hsplit, h1⟩ := ih
        { ledger := w.ledger ++ [⟨maxID w.ledger + 1, f.Name, b, env.now (w.tick + 2)⟩],
          tick := w.tick + 3,
          trace := w.trace ++ [Event.read f.Path, Event.exec ((fileContent env f.Path).getD "")] }
      have hmx : maxID (w.ledger ++ [⟨maxID w.ledger + 1, f.Name, b, env.now (w.tick + 2)⟩])
          = maxID w.ledger + 1 := by
        rw [maxID_append, maxID_singleton]; simp
      refine ⟨f :: pre, rest, by rw [hsplit]; rfl, ?_⟩
      simp only [applyAll, hm]
      rw [h1]
      simp only [hmx, newRows, List.append_assoc, List.singleton_append]

/-- The names that `Up` adds are names of pending files, in their order,
provided its row loop returns an error or every row. -/
theorem Up_names (env : Env) (w : World) (hcut : env.rowsBeforeFailure (w.tick + 1) = none) :
    (Up env w).2.ledger = w.ledger
    ∨ ∃ F pre rest, getMigrationFiles env = .ok F ∧ pendingOf F w.ledger = pre ++ rest
        ∧ (Up env w).2.ledger.map (fun r => r.Name)
            = w.ledger.map (fun r => r.Name) ++ pre.map (fun f => f.Name) := by
  rcases hplan : upPlan env w with ⟨r, w0⟩
  have hw := upPlan_world env w
  rw [hplan] at hw
  cases r with
  | error e => left; simpa [Up, hplan] using hw.1
  | ok o =>
    cases o with
    | none => left; simpa [Up, hplan] using hw.1
    | some pb =>
      obtain ⟨P, b⟩ := pb
      obtain ⟨F, applied, hF, hl, hP, _, _, hw0⟩ := upPlan_some_inv env w w0 P b hplan
      obtain ⟨pre, rest, hsplit, h1⟩ := applyAll_rows_split env b P w0
      right
      refine ⟨F, pre, rest, hF, ?_, ?_⟩
      · rw [← hsplit, hP, listed_complete hcut hl, getPendingMigrations_orderByID]
      · simp only [Up, hplan]
        rw [h1, hw0, List.map_append, newRows_names]

theorem Up_namesDistinct (env : Env) (w : World) (h : NamesDistinct w)
    (hF : ∀ F, getMigrationFiles env = .ok F → (F.map (fun f => f.Name)).Nodup)
    (hcut : ∀ t, env.rowsBeforeFailure t = none) :
    NamesDistinct (Up env w).2 := by
  rcases Up_names env w (hcut _) with hsame | ⟨F, pre, rest, hFok, hsplit, hnames⟩
  · unfold NamesDistinct
    rw [hsame]
    exact h
  · unfold NamesDistinct
    rw [hnames, List.nodup_append]
    have hsub : List.Sublist pre F := by
      have h1 : List.Sublist pre (pre ++ rest) := List.sublist_append_left pre rest
      rw [← hsplit] at h1
      exact h1.trans (List.filter_sublist F)
    refine ⟨h, (hF F hFok).sublist (hsub.map _), ?_⟩
    intro name hl hp
    obtain ⟨f, hf, hfe⟩ := List.mem_map.mp hp
    have hmem : f ∈ pendingOf F w.ledger := by
      rw [hsplit]
      exact List.mem_append_left _ hf
    unfold pendingOf at hmem
    rw [List.mem_filter] at hmem
    have := hmem.2
    simp only [decide_eq_true_eq] at this
    rw [hfe] at this
    exact this hl

theorem Down_namesDistinct (env : Env) (w : World) (h : NamesDistinct w) :
    NamesDistinct (Down env w).2 :=
  List.Nodup.sublist ((Down_sublist env w).map _) h

/-- In every run from the empty ledger in which each walk finds pairwise
distinct names and no row loop loses rows, no two rows of the ledger have the
same `Name`. -/
theorem runCmds_namesDistinct (cmds : List (Cmd × Env)) (w : World) (h : NamesDistinct w)
    (hF : ∀ c ∈ cmds, ∀ F, getMigrationFiles c.2 = .ok F → (F.map (fun f => f.Name)).Nodup)
    (hcut : ∀ c ∈ cmds, ∀ t, c.2.rowsBeforeFailure t = none) :
    NamesDistinct (runCmds cmds w) := by
  induction cmds generalizing w with
  | nil => exact h
  | cons c rest ih =>
    have hstep : NamesDistinct (step w c) := by
      have hc := hF c (List.mem_cons_self _ _)
      have hc2 := hcut c (List.mem_cons_self _ _)
      obtain ⟨cmd, env⟩ := c
      cases cmd with
      | up => exact Up_namesDistinct env w h hc hc2
      | down => exact Down_namesDistinct env w h
    exact ih (step w c) hstep (fun c' hc' => hF c' (List.mem_cons_of_mem _ hc'))
      (fun c' hc' => hcut c' (List.mem_cons_of_mem _ hc'))

/-! ## Files directly in the migrations directory -/

theorem baseChars_of_plain (ys acc : List Char) (h : '/' ∉ ys) : baseChars ys acc = acc ++ ys := by
  induction ys generalizing acc with
  | nil => simp [baseChars]
  | cons c cs ih =>
    have hc : c ≠ '/' := fun e => h (by rw [e]; exact List.mem_cons_self _ _)
    have hcs : '/' ∉ cs := fun e => h (List.mem_cons_of_mem _ e)
    simp [baseChars, hc, ih _ hcs]

theorem baseChars_after_sep (xs ys acc : List Char) :
    baseChars (xs ++ '/' :: ys) acc = baseChars ys [] := by
  induction xs generalizing acc with
  | nil => simp [baseChars]
  | cons c cs ih =>
    by_cases hc : c = '/'
    · simp [baseChars, hc, ih]
    · simp [baseChars, hc, ih]

theorem Join_data (dir name : String) : (Join dir name).data = dir.data ++ '/' :: name.data := by
  simp [Join, String.data_append]

theorem Base_Join (dir name : String) (h : '/' ∉ name.data) : Base (Join dir name) = name := by
  apply String.ext
  simp [Base, Join_data, baseChars_after_sep, baseChars_of_plain _ _ h]

/-- A suffix without separator of a joined path is a suffix of the last
element. -/
theorem suffix_of_Join (dir name suffix : String) (hs : '/' ∉ suffix.data)
    (h : HasSuffix (Join dir name) suffix = true) :
    ∃ stem : List Char, name.data = stem ++ suffix.data := by
  unfold HasSuffix at h
  rw [List.isSuffixOf_iff_suffix, Join_data] at h
  obtain ⟨t, ht⟩ := h
  have ht2 : t ++ suffix.data = (dir.data ++ ['/']) ++ name.data := by simpa using ht
  rcases List.append_eq_append_iff.mp ht2 with ⟨a1, h1, h2⟩ | ⟨c1, _, h2⟩
  · rcases List.eq_nil_or_concat a1 with hnil | ⟨a2, x, hx⟩
    · subst hnil
      exact ⟨[], by simpa using h2.symm⟩
    · subst hx
      exfalso
      have hrev := congrArg List.reverse h1
      simp only [List.concat_eq_append, List.reverse_append, List.reverse_cons, List.reverse_nil,
        List.nil_append, List.singleton_append, List.cons_append, List.cons.injEq] at hrev
      apply hs
      rw [h2, ← hrev.1]
      simp
  · exact ⟨c1, h2⟩

theorem TrimSuffix_of_append (s suffix : String) (stem : List Char)
    (h : s.data = stem ++ suffix.data) : TrimSuffix s suffix = ⟨stem⟩ := by
  have hs : HasSuffix s suffix = true := by
    unfold HasSuffix
    rw [List.isSuffixOf_iff_suffix, h]
    exact List.suffix_append _ _
  unfold TrimSuffix
  rw [if_pos hs]
  congr 1
  rw [h]
  simp

/-- For an up file directly in the migrations directory, the path that
`rollbackMigration` builds from the name is the path of the up file with the
suffix `.up.sql` swapped for `.down.sql`. -/
theorem downPath_eq_sibling (env : Env) (name : String) (hplain : '/' ∉ name.data)
    (hsuf : HasSuffix (Join env.MigrationsPath name) ".up.sql" = true) :
    downPath env (TrimSuffix (Base (Join env.MigrationsPath name)) ".up.sql")
      = TrimSuffix (Join env.MigrationsPath name) ".up.sql" ++ ".down.sql" := by
  obtain ⟨stem, hstem⟩ := suffix_of_Join env.MigrationsPath name ".up.sql" (by decide) hsuf
  have hjoin : (Join env.MigrationsPath name).data
      = (env.MigrationsPath.data ++ '/' :: stem) ++ (".up.sql" : String).data := by
    rw [Join_data, hstem]
    simp
  rw [Base_Join _ _ hplain, TrimSuffix_of_append name _ stem hstem,
    TrimSuffix_of_append (Join env.MigrationsPath name) _ _ hjoin]
  apply String.ext
  simp [downPath, Join_data, String.data_append]

theorem walkList_flat (dir : String) : ∀ (ns : NodeList) (acc : List MigrationFile),
    flatList ns = true →
    walkList dir ns acc = .ok (acc ++
      ((fileNames ns).filter (fun n => HasSuffix (Join dir n) ".up.sql")).map (upFileOf dir))
  | .nil, acc, _ => by simp [walkList, fileNames]
  | .cons (.file name c) ns, acc, h => by
    simp only [flatList, Bool.and_eq_true] at h
    by_cases hs : HasSuffix (Join dir name) ".up.sql" = true
    · simp [walkList, walkNode, hs, walkList_flat dir ns _ h.2, fileNames, upFileOf]
    · simp [walkList, walkNode, hs, walkList_flat dir ns _ h.2, fileNames]
  | .cons (.dir name cs) ns, acc, h => by simp [flatList] at h
  | .cons (.broken name) ns, acc, h => by simp [flatList] at h

theorem fileNames_plain : ∀ (ns : NodeList), flatList ns = true →
    ∀ n ∈ fileNames ns, '/' ∉ n.data
  | .nil, _ => by simp [fileNames]
  | .cons (.file name c) ns, h => by
    simp only [flatList, Bool.and_eq_true, decide_eq_true_eq] at h
    intro n hn
    simp only [fileNames, List.mem_cons] at hn
    rcases hn with hn | hn
    · rw [hn]; exact h.1
    · exact fileNames_plain ns h.2 n hn
  | .cons (.dir name cs) ns, h => by simp [flatList] at h
  | .cons (.broken name) ns, h => by simp [flatList] at h

/-- What the walk finds in a directory without sub-directories. -/
theorem getMigrationFiles_flat (env : Env) (ns : NodeList) (F : List MigrationFile)
    (ht : env.tree = some ns) (hflat : flatList ns = true)
    (hF : getMigrationFiles env = .ok F) :
    F = sortByName (((fileNames ns).filter
      (fun n => HasSuffix (Join env.MigrationsPath n) ".up.sql")).map
        (upFileOf env.MigrationsPath)) := by
  unfold getMigrationFiles at hF
  rw [ht] at hF
  simp only [walkList_flat env.MigrationsPath ns [] hflat, List.nil_append] at hF
  cases hF
  rfl

/-- In a migrations directory without sub-directories, `rollbackMigration`
reads the sibling of every up file that the walk finds. -/
theorem rollback_reads_sibling_in_flat_directory (env : Env) (ns : NodeList)
    (F : List MigrationFile) (ht : env.tree = some ns) (hflat : flatList ns = true)
    (hF : getMigrationFiles env = .ok F) :
    ∀ f ∈ F, downPath env f.Name = TrimSuffix f.Path ".up.sql" ++ ".down.sql" := by
  intro f hf
  rw [getMigrationFiles_flat env ns F ht hflat hF] at hf
  unfold sortByName at hf
  rw [List.mem_insertionSort, List.mem_map] at hf
  obtain ⟨n, hn, hfe⟩ := hf
  rw [List.mem_filter] at hn
  rw [← hfe]
  exact downPath_eq_sibling env n (fileNames_plain ns hflat n hn.1) hn.2

theorem downEvents_map_name (env : Env) (l : List MigrationFile)
    (h : ∀ p ∈ l, downPath env p.Name = siblingDown p) :
    downEvents env (l.map (fun p => p.Name))
      = l.flatMap (fun p =>
          [Event.read (siblingDown p), Event.exec ((fileContent env (siblingDown p)).getD "")]) := by
  induction l with
  | nil => rfl
  | cons p rest ih =>
    have hp := h p (List.mem_cons_self _ _)
    have hrest := ih (fun q hq => h q (List.mem_cons_of_mem _ hq))
    unfold downEvents at hrest ⊢
    simp only [List.map_cons, List.flatMap_cons, hp, hrest]

/-- In a migrations directory without sub-directories, a fully successful
`Down` after a fully successful `Up` of the pending files `p1, ..., pk` reads
and executes the down files next to their up files, in the order
`pk, ..., p1`. -/
theorem Down_runs_sibling_down_scripts_in_flat_directory (env env' : Env) (w : World)
    (F : List MigrationFile) (ns : NodeList)
    (hF : getMigrationFiles env = .ok F)
    (hdb : ∀ n, env.dbFails n = false)
    (hne : getPendingMigrations F w.ledger ≠ [])
    (hread : ∀ p ∈ getPendingMigrations F w.ledger, (fileContent env p.Path).isSome = true)
    (hid : maxID w.ledger + (getPendingMigrations F w.ledger).length < 2 ^ 32)
    (hb : maxBatch w.ledger + 1 < 2 ^ 32)
    (hdb' : ∀ n, env'.dbFails n = false)
    (hdown : ∀ p ∈ getPendingMigrations F w.ledger,
      (fileContent env' (downPath env' p.Name)).isSome = true)
    (ht : env.tree = some ns) (hflat : flatList ns = true)
    (hpath : env'.MigrationsPath = env.MigrationsPath) :
    (Down env' (Up env w).2).1 = .ok ()
    ∧ (Down env' (Up env w).2).2.trace = (Up env w).2.trace
        ++ (getPendingMigrations F w.ledger).reverse.flatMap (fun p =>
            [Event.read (siblingDown p),
             Event.exec ((fileContent env' (siblingDown p)).getD "")]) := by
  have h := Down_trace_after_Up env env' w F hF hdb hne hread hid hb hdb' hdown
  refine ⟨h.2.2.1, ?_⟩
  rw [h.2.2.2.1, downEvents_map_name]
  intro p hp
  have hpF : p ∈ F := by
    rw [List.mem_reverse, getPendingMigrations_eq_filter] at hp
    exact (List.mem_filter.mp hp).1
  have hs := rollback_reads_sibling_in_flat_directory env ns F ht hflat hF p hpF
  unfold downPath at hs ⊢
  rw [hpath]
  exact hs

/-- In a migrations directory without sub-directories whose file names are
pairwise distinct, the walk finds pairwise distinct migration names. -/
theorem getMigrationFiles_flat_nodup (env : Env) (ns : NodeList) (F : List MigrationFile)
    (ht : env.tree = some ns) (hflat : flatList ns = true) (hnd : (fileNames ns).Nodup)
    (hF : getMigrationFiles env = .ok F) :
    (F.map (fun f => f.Name)).Nodup := by
  rw [getMigrationFiles_flat env ns F ht hflat hF]
  unfold sortByName
  rw [List.Perm.nodup_iff ((List.perm_insertionSort _ _).map _), List.map_map]
  apply List.Nodup.map_on _ (hnd.filter _)
  intro x hx y hy hxy
  rw [List.mem_filter] at hx hy
  obtain ⟨sx, hsx⟩ := suffix_of_Join env.MigrationsPath x ".up.sql" (by decide) hx.2
  obtain ⟨sy, hsy⟩ := suffix_of_Join env.MigrationsPath y ".up.sql" (by decide) hy.2
  simp only [Function.comp, upFileOf] at hxy
  rw [Base_Join _ _ (fileNames_plain ns hflat x hx.1),
    Base_Join _ _ (fileNames_plain ns hflat y hy.1),
    TrimSuffix_of_append x _ sx hsx, TrimSuffix_of_append y _ sy hsy] at hxy
  apply String.ext
  rw [hsx, hsy]
  injection hxy with hxy
  rw [hxy]

/-- In every run from the empty ledger over migrations directories without
sub-directories, in which no row loop loses rows, no two rows of the ledger
have the same `Name`. -/
theorem names_distinct_in_flat_directories (cmds : List (Cmd × Env))
    (h : ∀ c ∈ cmds, ∀ ns, c.2.tree = some ns → flatList ns = true ∧ (fileNames ns).Nodup)
    (hcut : ∀ c ∈ cmds, ∀ t, c.2.rowsBeforeFailure t = none) :
    NamesDistinct (runCmds cmds emptyWorld) := by
  apply runCmds_namesDistinct cmds emptyWorld List.nodup_nil _ hcut
  intro c hc F hF
  cases ht : c.2.tree with
  | none => simp [getMigrationFiles, ht] at hF
  | some ns =>
    obtain ⟨hflat, hnd⟩ := h c hc ns ht
    exact getMigrationFiles_flat_nodup c.2 ns F ht hflat hnd hF

/-! ## Migration files in sub-directories -/

/-- C8 fails on the code: with the up files `core/001_init.up.sql` and
`reports/001_init.up.sql` below the migrations directory, the walk names both
`001_init`, both are pending on the empty ledger, and one successful `Up`
inserts two rows with the same `Name`. -/
theorem Up_inserts_duplicate_names :
    getMigrationFiles (calmEnv sameNameTree)
      = .ok [{ Name := "001_init", Path := "migrations/core/001_init.up.sql" },
             { Name := "001_init", Path := "migrations/reports/001_init.up.sql" }]
    ∧ (Up (calmEnv sameNameTree) emptyWorld).1 = .ok ()
    ∧ (runCmds [(Cmd.up, calmEnv sameNameTree)] emptyWorld).ledger
      = [{ ID := 1, Name := "001_init", Batch := 1, ExecutedAt := 5 },
         { ID := 2, Name := "001_init", Batch := 1, ExecutedAt := 8 }]
    ∧ ¬ ((runCmds [(Cmd.up, calmEnv sameNameTree)] emptyWorld).ledger.map
          (fun r => r.Name)).Nodup := by
  decide

/-- C4 fails on the code: with `001_init.up.sql` at the top and
`core/001_init.up.sql` in a sub-directory, one successful `Up` executes the up
script of the top, then the up script of `core`; the successful `Down` that
follows reads `migrations/001_init.down.sql` for both rows and so executes the
down script of the top twice and the down script of `core`, which exists next
to its up file, never. -/
theorem Down_runs_wrong_down_script_for_subdirectory :
    getMigrationFiles (calmEnv shadowTree)
      = .ok [{ Name := "001_init", Path := "migrations/001_init.up.sql" },
             { Name := "001_init", Path := "migrations/core/001_init.up.sql" }]
    ∧ (Up (calmEnv shadowTree) emptyWorld).1 = .ok ()
    ∧ (Up (calmEnv shadowTree) emptyWorld).2.trace
      = [Event.read "migrations/001_init.up.sql", Event.exec "CREATE top",
         Event.read "migrations/core/001_init.up.sql", Event.exec "CREATE core"]
    ∧ (Down (calmEnv shadowTree) (Up (calmEnv shadowTree) emptyWorld).2).1 = .ok ()
    ∧ (Down (calmEnv shadowTree) (Up (calmEnv shadowTree) emptyWorld).2).2.trace
      = (Up (calmEnv shadowTree) emptyWorld).2.trace ++
        [Event.read "migrations/001_init.down.sql", Event.exec "DROP top",
         Event.read "migrations/001_init.down.sql", Event.exec "DROP top"]
    ∧ siblingDown { Name := "001_init", Path := "migrations/core/001_init.up.sql" }
      = "migrations/core/001_init.down.sql"
    ∧ fileContent (calmEnv shadowTree) "migrations/core/001_init.down.sql" = some "DROP core"
    ∧ Event.exec "DROP core"
      ∉ (Down (calmEnv shadowTree) (Up (calmEnv shadowTree) emptyWorld).2).2.trace := by
  decide

/-- C10 fails on the code: for the up file `core/001_init.up.sql`, found by the
recursive walk and applied by `Up`, `rollbackMigration` reads
`migrations/001_init.down.sql`, not the sibling
`migrations/core/001_init.down.sql`; the sibling exists, the path read does
not, so `Down` returns the read error and the row stays. -/
theorem Down_misses_sibling_in_subdirectory :
    getMigrationFiles (calmEnv nestedTree)
      = .ok [{ Name := "001_init", Path := "migrations/core/001_init.up.sql" }]
    ∧ (Up (calmEnv nestedTree) emptyWorld).1 = .ok ()
    ∧ (Up (calmEnv nestedTree) emptyWorld).2.ledger
      = [{ ID := 1, Name := "001_init", Batch := 1, ExecutedAt := 5 }]
    ∧ TrimSuffix "migrations/core/001_init.up.sql" ".up.sql" ++ ".down.sql"
      = "migrations/core/001_init.down.sql"
    ∧ fileContent (calmEnv nestedTree) "migrations/core/001_init.down.sql" = some "DROP core"
    ∧ downPath (calmEnv nestedTree) "001_init" = "migrations/001_init.down.sql"
    ∧ (Down (calmEnv nestedTree) (Up (calmEnv nestedTree) emptyWorld).2).1
      = .error (.wrap ("не удалось откатить миграцию " ++ "001_init")
          (.wrap "не удалось прочитать файл отката" (.io "migrations/001_init.down.sql")))
    ∧ (Down (calmEnv nestedTree) (Up (calmEnv nestedTree) emptyWorld).2).2.ledger
      = [{ ID := 1, Name := "001_init", Batch := 1, ExecutedAt := 5 }] := by
  decide

end Migrate
